import Mathlib

/-!
Verification of the delivery-route optimization engine of this repository.

The repository ships a React/Leaflet frontend (under `frontend/`) and a
FastAPI backend (under `server/`, described by the README and the design
document) that computes near-optimal delivery tours over a road-network
graph: Dijkstra / Floyd–Warshall shortest paths, a distance matrix over the
points of interest, nearest-neighbor + 2-opt tour construction, and a route
assembler that stitches per-leg shortest paths into the final route.

This file gives a shallow embedding of that engine and of the frontend's
route-segment processing, and proves the specified properties about them.
Distances are modelled as exact rationals (`ℚ`); `Option ℚ` plays the role
of a distance that may be infinite (`none` = unreachable), matching the
backend's use of IEEE infinity for unreachable pairs.
-/

namespace CaRoute

/-! ## Extended distances: `Option ℚ` with `none` as infinity -/

/-- Addition of possibly-infinite distances: `none` (infinity) is absorbing. -/
def dadd : Option ℚ → Option ℚ → Option ℚ
  | some a, some b => some (a + b)
  | _, _ => none

/-- Strict comparison of possibly-infinite distances (`none` = infinity). -/
def dltB : Option ℚ → Option ℚ → Bool
  | some a, some b => a < b
  | some _, none => true
  | none, _ => false

/-- Non-strict comparison of possibly-infinite distances (`none` = infinity). -/
def dleB : Option ℚ → Option ℚ → Bool
  | some a, some b => a ≤ b
  | some _, none => true
  | none, some _ => false
  | none, none => true

@[simp] theorem dadd_some_some (a b : ℚ) : dadd (some a) (some b) = some (a + b) := rfl

@[simp] theorem dadd_none_left (b : Option ℚ) : dadd none b = none := by
  cases b <;> rfl

@[simp] theorem dadd_none_right (a : Option ℚ) : dadd a none = none := by
  cases a <;> rfl

theorem dadd_assoc (a b c : Option ℚ) : dadd (dadd a b) c = dadd a (dadd b c) := by
  cases a <;> cases b <;> cases c <;> simp [dadd, add_assoc]

theorem dadd_zero_right (a : Option ℚ) : dadd a (some 0) = a := by
  cases a <;> simp [dadd]

theorem dadd_zero_left (a : Option ℚ) : dadd (some 0) a = a := by
  cases a <;> simp [dadd]

theorem dadd_eq_some {a b : Option ℚ} {c : ℚ} (h : dadd a b = some c) :
    ∃ x y, a = some x ∧ b = some y ∧ c = x + y := by
  cases a with
  | none => simp [dadd] at h
  | some x =>
    cases b with
    | none => simp [dadd] at h
    | some y => exact ⟨x, y, rfl, rfl, by simpa [dadd] using h.symm⟩

@[simp] theorem dltB_some_some (a b : ℚ) : dltB (some a) (some b) = decide (a < b) := rfl

@[simp] theorem dltB_some_none (a : ℚ) : dltB (some a) none = true := rfl

@[simp] theorem dltB_none (b : Option ℚ) : dltB none b = false := by
  cases b <;> rfl

@[simp] theorem dleB_some_some (a b : ℚ) : dleB (some a) (some b) = decide (a ≤ b) := rfl

@[simp] theorem dleB_some_none (a : ℚ) : dleB (some a) none = true := rfl

@[simp] theorem dleB_none_some (b : ℚ) : dleB none (some b) = false := rfl

@[simp] theorem dleB_none_none : dleB none none = true := rfl

@[simp] theorem dleB_refl (a : Option ℚ) : dleB a a = true := by
  cases a <;> simp

theorem dleB_trans {a b c : Option ℚ} (h₁ : dleB a b = true) (h₂ : dleB b c = true) :
    dleB a c = true := by
  cases a <;> cases b <;> cases c <;> simp_all
  exact le_trans h₁ h₂

theorem dleB_antisymm {a b : Option ℚ} (h₁ : dleB a b = true) (h₂ : dleB b a = true) :
    a = b := by
  cases a <;> cases b <;> simp_all
  exact le_antisymm h₁ h₂

theorem dleB_of_dltB {a b : Option ℚ} (h : dltB a b = true) : dleB a b = true := by
  cases a <;> cases b <;> simp_all
  exact le_of_lt h

theorem dltB_irrefl (a : Option ℚ) : dltB a a = false := by
  cases a <;> simp

theorem dleB_of_not_dltB {a b : Option ℚ} (h : ¬ dltB b a = true) : dleB a b = true := by
  cases a <;> cases b <;> simp_all [not_lt]

theorem dltB_of_dleB_of_dltB {a b c : Option ℚ} (h₁ : dleB a b = true)
    (h₂ : dltB b c = true) : dltB a c = true := by
  cases a <;> cases b <;> cases c <;> simp_all
  exact lt_of_le_of_lt h₁ h₂

theorem dleB_some_trans_lt {a b : ℚ} (h : a ≤ b) : dleB (some a) (some b) = true := by
  simpa using h

theorem dleB_dadd_mono {a a' b b' : Option ℚ} (h₁ : dleB a a' = true)
    (h₂ : dleB b b' = true) : dleB (dadd a b) (dadd a' b') = true := by
  cases a <;> cases a' <;> cases b <;> cases b' <;> simp_all [dadd]
  exact add_le_add h₁ h₂

theorem dadd_some_nonneg_le {a : Option ℚ} {q : ℚ} (hq : 0 ≤ q) :
    dleB a (dadd a (some q)) = true := by
  cases a with
  | none => simp
  | some x => simp [dadd]; linarith

/-! ## The frontend's route-segment processing (`processRouteSegments`)

The frontend's `MapView` component receives a route as a list of per-leg
coordinate segments and joins them into a single polyline.  A raw segment
as delivered by the API is an arbitrary JSON value: we model it as
`Option (List (Option Coord))` — `none` for a value that is not an array,
and each element `none` for an entry that is not an array of length ≥ 2.
`Number(...)` conversion of the two components is modelled by the rational
coordinates themselves. -/

/-- A parsed latitude/longitude pair. -/
abbrev Coord := ℚ × ℚ

/-- Squared Euclidean distance between two coordinates.  The frontend compares
`Math.sqrt(dx² + dy²) < ε`; for `ε > 0` this is equivalent to
`dx² + dy² < ε²`, which is how we embed the comparison exactly in `ℚ`. -/
def distSq (p q : Coord) : ℚ := (p.1 - q.1) ^ 2 + (p.2 - q.2) ^ 2

/-- The frontend's duplicate-junction test: Euclidean distance strictly less
than `0.0001`, embedded as squared distance less than `0.0001²`. -/
def nearB (p q : Coord) : Bool := distSq p q < (1 / 10000 : ℚ) ^ 2

/-- `parseCoordinates` from `MapView`: keep exactly the entries that are
arrays of length ≥ 2 (modelled as the `some` entries), in order. -/
def parseCoordinates (coords : List (Option Coord)) : List Coord :=
  coords.filterMap id

/-- One iteration of the `segmentos.forEach` loop in `processRouteSegments`:
skip non-array or short segments, skip segments with fewer than two parsed
coordinates, and otherwise append — dropping the first coordinate when it is
within `0.0001` of the last coordinate accumulated so far. -/
def segStep (acc : List Coord) (seg : Option (List (Option Coord))) : List Coord :=
  match seg with
  | none => acc
  | some raw =>
    if raw.length < 2 then acc
    else
      let cs := parseCoordinates raw
      if cs.length < 2 then acc
      else
        match acc.getLast?, cs with
        | some lastP, c0 :: ctail => if nearB lastP c0 then acc ++ ctail else acc ++ cs
        | _, _ => acc ++ cs

/-- `processRouteSegments` from the frontend `MapView` components. -/
def processRouteSegments (segs : List (Option (List (Option Coord)))) : List Coord :=
  segs.foldl segStep []

/-- The segments that `processRouteSegments` keeps, per the specification:
exactly those inputs that are arrays containing at least two valid
coordinate pairs, each replaced by its parsed coordinate list. -/
def keptSegs (segs : List (Option (List (Option Coord)))) : List (List Coord) :=
  segs.filterMap fun seg =>
    seg.bind fun raw =>
      let cs := parseCoordinates raw
      if 2 ≤ cs.length then some cs else none

/-- Join one kept segment onto the accumulated coordinates, omitting the
segment's first coordinate exactly when it lies within Euclidean distance
`0.0001` of the last accumulated coordinate. -/
def joinStep (acc : List Coord) (cs : List Coord) : List Coord :=
  match acc.getLast?, cs with
  | some lastP, c0 :: ctail => if nearB lastP c0 then acc ++ ctail else acc ++ cs
  | _, _ => acc ++ cs

/-- In-order concatenation of kept segments with duplicate-junction elision. -/
def joinKept (l : List (List Coord)) : List Coord := l.foldl joinStep []

/-- The filter used by `keptSegs`, applied to one raw segment. -/
def keepSeg (seg : Option (List (Option Coord))) : Option (List Coord) :=
  seg.bind fun raw =>
    if 2 ≤ (parseCoordinates raw).length then some (parseCoordinates raw) else none

theorem keptSegs_eq_filterMap (segs : List (Option (List (Option Coord)))) :
    keptSegs segs = segs.filterMap keepSeg := rfl

theorem segStep_eq_joinStep (acc : List Coord) (seg : Option (List (Option Coord))) :
    segStep acc seg = (match keepSeg seg with
      | none => acc
      | some cs => joinStep acc cs) := by
  cases seg with
  | none => rfl
  | some raw =>
    by_cases hlen : raw.length < 2
    · have hle : (parseCoordinates raw).length ≤ raw.length :=
        List.length_filterMap_le id raw
      have hcs : ¬ 2 ≤ (parseCoordinates raw).length := by omega
      simp [segStep, keepSeg, hlen, hcs]
    · by_cases hcs : (parseCoordinates raw).length < 2
      · have h2 : ¬ 2 ≤ (parseCoordinates raw).length := by omega
        simp [segStep, keepSeg, hlen, hcs, h2]
      · have h2 : 2 ≤ (parseCoordinates raw).length := by omega
        have hcs' : ¬ (parseCoordinates raw).length < 2 := by omega
        simp [segStep, keepSeg, hlen, hcs', h2, joinStep]

theorem foldl_segStep_eq (segs : List (Option (List (Option Coord)))) :
    ∀ acc, segs.foldl segStep acc = (keptSegs segs).foldl joinStep acc := by
  induction segs with
  | nil => intro acc; rfl
  | cons seg rest ih =>
    intro acc
    rw [List.foldl_cons, segStep_eq_joinStep, keptSegs_eq_filterMap, List.filterMap_cons]
    cases h : keepSeg seg with
    | none => simpa [keptSegs_eq_filterMap] using ih acc
    | some cs => simpa [keptSegs_eq_filterMap] using ih (joinStep acc cs)

/-- C10: for every input list of segments, the frontend's
`processRouteSegments` returns the in-order concatenation of exactly those
segments that are arrays containing at least 2 valid coordinate pairs (all
other segments are silently skipped), where a kept segment's first
coordinate is omitted if and only if its Euclidean distance to the last
coordinate already accumulated is strictly less than `0.0001` (embedded as
squared distance `< 0.0001²`); the empty segment list yields the empty
coordinate list. -/
theorem c10_processRouteSegments (segs : List (Option (List (Option Coord)))) :
    processRouteSegments segs = joinKept (keptSegs segs) ∧
      processRouteSegments [] = ([] : List Coord) :=
  ⟨foldl_segStep_eq segs [], rfl⟩

/-! ## Tour Optimizer (spec §4.4)

Modelled from the spec: the backend's TSP module (`server/algorithms/`,
nearest-neighbor construction plus 2-opt refinement over the distance
matrix) is not among the provided sources; the definitions below follow
§4.4 of the design document.  The matrix is given as a total function
`d : ℕ → ℕ → ℚ` over point indices `0 .. n-1` (index 0 = origin); by the
time the Tour Optimizer runs all pairwise distances are finite (§4.3). -/

/-- Total length of a tour: sum of matrix distances along consecutive pairs. -/
def tourLength (d : ℕ → ℕ → ℚ) : List ℕ → ℚ
  | a :: b :: rest => d a b + tourLength d (b :: rest)
  | _ => 0

/-- Nearest unvisited candidate by matrix distance, ties broken by the
earliest (lowest-index) candidate in the list. -/
def nnSelect (d : ℕ → ℕ → ℚ) (cur : ℕ) : List ℕ → Option ℕ
  | [] => none
  | c :: cs =>
    match nnSelect d cur cs with
    | none => some c
    | some b => if d cur c ≤ d cur b then some c else some b

/-- Nearest-neighbor construction: repeatedly move to the nearest remaining
destination, removing it from the remaining set. -/
def nnAux (d : ℕ → ℕ → ℚ) : ℕ → ℕ → List ℕ → List ℕ
  | 0, _, _ => []
  | fuel + 1, cur, rem =>
    match nnSelect d cur rem with
    | none => []
    | some c => c :: nnAux d fuel c (rem.erase c)

/-- The nearest-neighbor seed tour: start at the origin (index 0), visit all
destinations `1 .. n-1`, close the tour by returning to the origin. -/
def nnTour (d : ℕ → ℕ → ℚ) (n : ℕ) : List ℕ :=
  0 :: (nnAux d (n - 1) 0 (List.range' 1 (n - 1)) ++ [0])

/-- 2-opt move: reverse the contiguous segment `t[i..j]` of the tour. -/
def reverseSegment (t : List ℕ) (i j : ℕ) : List ℕ :=
  t.take i ++ ((t.drop i).take (j + 1 - i)).reverse ++ t.drop (j + 1)

/-- The fixed earliest-pair-first scan order of the 2-opt edge pairs: all
`(i, j)` with `1 ≤ i < j ≤ len - 2`, so the origin at both ends of the tour
is never moved. -/
def pairsList (len : ℕ) : List (ℕ × ℕ) :=
  (List.range len).flatMap fun i =>
    (List.range len).filterMap fun j =>
      if 1 ≤ i ∧ i < j ∧ j + 2 ≤ len then some (i, j) else none

/-- Does reversing `t[i..j]` strictly decrease total tour length? -/
def improves (d : ℕ → ℕ → ℚ) (t : List ℕ) : ℕ × ℕ → Bool
  | (i, j) => decide (tourLength d (reverseSegment t i j) < tourLength d t)

/-- First improving reversal in the fixed scan order, if any. -/
def firstImproving (d : ℕ → ℕ → ℚ) (t : List ℕ) : Option (ℕ × ℕ) :=
  (pairsList t.length).find? (improves d t)

/-- 2-opt refinement: apply the first improving reversal and repeat, up to
the iteration cap. -/
def twoOptAux (d : ℕ → ℕ → ℚ) : ℕ → List ℕ → List ℕ
  | 0, t => t
  | fuel + 1, t =>
    match firstImproving d t with
    | none => t
    | some (i, j) => twoOptAux d fuel (reverseSegment t i j)

/-- Iteration cap for 2-opt, a function of `n` guaranteeing termination. -/
def twoOptCap (n : ℕ) : ℕ := n * n + 1

/-- The Tour Optimizer: nearest-neighbor construction + 2-opt refinement. -/
def tourOptimizer (d : ℕ → ℕ → ℚ) (n : ℕ) : List ℕ :=
  twoOptAux d (twoOptCap n) (nnTour d n)

/-- A valid permutation tour over `n` points: starts and ends at the origin
index 0, and the indices strictly between the two origin occurrences are a
permutation of the destination indices `1 .. n-1`. -/
def ValidTour (n : ℕ) (t : List ℕ) : Prop :=
  t.length = n + 1 ∧ t.head? = some 0 ∧ t.getLast? = some 0 ∧
    ((t.drop 1).dropLast).Perm (List.range' 1 (n - 1))

/-! ### Nearest-neighbor construction facts -/

theorem nnSelect_eq_none {d : ℕ → ℕ → ℚ} {cur : ℕ} :
    ∀ {rem : List ℕ}, nnSelect d cur rem = none → rem = [] := by
  intro rem h
  cases rem with
  | nil => rfl
  | cons c cs =>
    simp only [nnSelect] at h
    cases hr : nnSelect d cur cs with
    | none => simp [hr] at h
    | some b => simp only [hr] at h; split at h <;> simp_all

theorem nnSelect_split {d : ℕ → ℕ → ℚ} {cur : ℕ} :
    ∀ {rem : List ℕ} {c : ℕ}, nnSelect d cur rem = some c →
      ∃ l₁ l₂, rem = l₁ ++ c :: l₂ ∧ (∀ y ∈ l₁, d cur c < d cur y) ∧
        (∀ y ∈ l₂, d cur c ≤ d cur y) := by
  intro rem
  induction rem with
  | nil => intro c h; simp [nnSelect] at h
  | cons x xs ih =>
    intro c h
    simp only [nnSelect] at h
    cases hr : nnSelect d cur xs with
    | none =>
      simp only [hr, Option.some.injEq] at h
      have hxs : xs = [] := nnSelect_eq_none hr
      subst hxs
      subst h
      exact ⟨[], [], rfl, by simp, by simp⟩
    | some b =>
      simp only [hr] at h
      obtain ⟨l₁, l₂, hsplit, hlt, hle⟩ := ih hr
      by_cases hc : d cur x ≤ d cur b
      · rw [if_pos hc] at h
        simp only [Option.some.injEq] at h
        subst h
        refine ⟨[], xs, rfl, by simp, ?_⟩
        intro y hy
        rw [hsplit] at hy
        rcases List.mem_append.mp hy with h₁ | h₂
        · exact le_trans hc (le_of_lt (hlt y h₁))
        · rcases h₂ with _ | h₂
          · exact hc
          · exact le_trans hc (hle y (by assumption))
      · rw [if_neg hc] at h
        simp only [Option.some.injEq] at h
        subst h
        refine ⟨x :: l₁, l₂, by simp [hsplit], ?_, hle⟩
        intro y hy
        rcases List.mem_cons.mp hy with rfl | h₁
        · exact lt_of_not_le hc
        · exact hlt y h₁

theorem nnSelect_mem {d : ℕ → ℕ → ℚ} {cur : ℕ} {rem : List ℕ} {c : ℕ}
    (h : nnSelect d cur rem = some c) : c ∈ rem := by
  obtain ⟨l₁, l₂, hsplit, -, -⟩ := nnSelect_split h
  rw [hsplit]
  simp

theorem nnSelect_min {d : ℕ → ℕ → ℚ} {cur : ℕ} {rem : List ℕ} {c : ℕ}
    (h : nnSelect d cur rem = some c) : ∀ y ∈ rem, d cur c ≤ d cur y := by
  obtain ⟨l₁, l₂, hsplit, hlt, hle⟩ := nnSelect_split h
  intro y hy
  rw [hsplit] at hy
  rcases List.mem_append.mp hy with h₁ | h₂
  · exact le_of_lt (hlt y h₁)
  · rcases h₂ with _ | h₂
    · exact le_rfl
    · exact hle y (by assumption)

theorem nnAux_perm (d : ℕ → ℕ → ℚ) :
    ∀ (fuel : ℕ) (cur : ℕ) (rem : List ℕ), rem.length ≤ fuel →
      (nnAux d fuel cur rem).Perm rem := by
  intro fuel
  induction fuel with
  | zero =>
    intro cur rem h
    have : rem = [] := List.eq_nil_of_length_eq_zero (Nat.le_zero.mp h)
    subst this
    simp [nnAux]
  | succ f ih =>
    intro cur rem h
    simp only [nnAux]
    cases hs : nnSelect d cur rem with
    | none =>
      have : rem = [] := nnSelect_eq_none hs
      subst this
      simp
    | some c =>
      have hc : c ∈ rem := nnSelect_mem hs
      have hlen : (rem.erase c).length ≤ f := by
        rw [List.length_erase_of_mem hc]
        omega
      have hperm := ih c (rem.erase c) hlen
      exact (hperm.cons c).trans (List.perm_cons_erase hc).symm

/-! ### Tour shape and 2-opt reversal facts -/

theorem tour_shape {t : List ℕ} (hlen : 2 ≤ t.length) (hh : t.head? = some 0)
    (hl : t.getLast? = some 0) : t = 0 :: ((t.drop 1).dropLast ++ [0]) := by
  cases t with
  | nil => simp at hlen
  | cons a tail =>
    simp only [List.head?_cons, Option.some.injEq] at hh
    subst hh
    have htail : tail ≠ [] := by
      intro hc; subst hc; simp at hlen
    have h1 : ((0 : ℕ) :: tail).getLast? = tail.getLast? :=
      List.getLast?_append_of_ne_nil [0] htail
    rw [h1] at hl
    have h2 : tail.getLast htail = 0 := by
      have h3 := List.getLast?_eq_getLast tail htail
      rw [h3] at hl
      exact Option.some.inj hl
    have h3 : tail.dropLast ++ [tail.getLast htail] = tail :=
      List.dropLast_append_getLast htail
    rw [h2] at h3
    simp only [List.drop_one, List.tail_cons]
    rw [h3]

theorem reverseSegment_decomp (t : List ℕ) (i j : ℕ) (hij : i ≤ j + 1) :
    t.take i ++ ((t.drop i).take (j + 1 - i) ++ t.drop (j + 1)) = t := by
  have h2 : (t.drop i).drop (j + 1 - i) = t.drop (j + 1) := by
    rw [List.drop_drop]; congr 1; omega
  rw [← h2, List.take_append_drop, List.take_append_drop]

theorem reverseSegment_perm (t : List ℕ) (i j : ℕ) (hij : i ≤ j + 1) :
    List.Perm (reverseSegment t i j) t := by
  unfold reverseSegment
  rw [List.append_assoc]
  have hmid : List.Perm (((t.drop i).take (j + 1 - i)).reverse ++ t.drop (j + 1))
      ((t.drop i).take (j + 1 - i) ++ t.drop (j + 1)) :=
    List.Perm.append_right _ (List.reverse_perm _)
  have hall := List.Perm.append_left (t.take i) hmid
  have heq := reverseSegment_decomp t i j hij
  rw [heq] at hall
  exact hall

theorem reverseSegment_head? (t : List ℕ) (i j : ℕ) (hi : 1 ≤ i) (ht : t ≠ []) :
    (reverseSegment t i j).head? = t.head? := by
  cases t with
  | nil => exact absurd rfl ht
  | cons a tail =>
    unfold reverseSegment
    cases i with
    | zero => omega
    | succ i' => simp [List.take_succ_cons, List.cons_append]

theorem reverseSegment_getLast? (t : List ℕ) (i j : ℕ) (hj : j + 2 ≤ t.length) :
    (reverseSegment t i j).getLast? = t.getLast? := by
  have hne : t.drop (j + 1) ≠ [] := by
    intro hc
    have hlen := congrArg List.length hc
    simp only [List.length_drop, List.length_nil] at hlen
    omega
  unfold reverseSegment
  rw [List.getLast?_append_of_ne_nil _ hne]
  conv_rhs => rw [← List.take_append_drop (j + 1) t]
  rw [List.getLast?_append_of_ne_nil _ hne]

theorem validTour_reverseSegment {n : ℕ} {t : List ℕ} (hv : ValidTour n t)
    {i j : ℕ} (hi : 1 ≤ i) (hij : i < j) (hj : j + 2 ≤ t.length) :
    ValidTour n (reverseSegment t i j) := by
  obtain ⟨hlen, hh, hl, hperm⟩ := hv
  have hperm' := reverseSegment_perm t i j (by omega)
  have ht : t ≠ [] := by
    intro hc; subst hc; simp at hlen
  have hh' : (reverseSegment t i j).head? = some 0 := by
    rw [reverseSegment_head? t i j hi ht, hh]
  have hl' : (reverseSegment t i j).getLast? = some 0 := by
    rw [reverseSegment_getLast? t i j hj, hl]
  refine ⟨by rw [hperm'.length_eq, hlen], hh', hl', ?_⟩
  have hlen2 : 2 ≤ t.length := by omega
  have hlen2' : 2 ≤ (reverseSegment t i j).length := by
    rw [hperm'.length_eq]; omega
  have hshape := tour_shape hlen2 hh hl
  have hshape' := tour_shape hlen2' hh' hl'
  set mid := (t.drop 1).dropLast with hmid
  set mid' := ((reverseSegment t i j).drop 1).dropLast with hmid'
  have hp := hperm'
  rw [hshape', hshape] at hp
  exact (((List.perm_append_right_iff [0]).mp hp.cons_inv)).trans hperm

/-! ### Scan-order and first-improving-move facts -/

theorem mem_pairsList {len i j : ℕ} :
    (i, j) ∈ pairsList len ↔ 1 ≤ i ∧ i < j ∧ j + 2 ≤ len := by
  unfold pairsList
  simp only [List.mem_flatMap, List.mem_filterMap, List.mem_range]
  constructor
  · rintro ⟨i', -, j', -, h⟩
    by_cases hc : 1 ≤ i' ∧ i' < j' ∧ j' + 2 ≤ len
    · rw [if_pos hc] at h
      simp only [Option.some.injEq, Prod.mk.injEq] at h
      obtain ⟨rfl, rfl⟩ := h
      exact hc
    · rw [if_neg hc] at h
      simp at h
  · rintro ⟨h1, h2, h3⟩
    refine ⟨i, by omega, j, by omega, ?_⟩
    rw [if_pos ⟨h1, h2, h3⟩]

theorem find?_eq_some_split {α : Type} {p : α → Bool} :
    ∀ {l : List α} {a : α}, l.find? p = some a →
      p a = true ∧ ∃ l₁ l₂, l = l₁ ++ a :: l₂ ∧ ∀ x ∈ l₁, p x = false := by
  intro l
  induction l with
  | nil => intro a h; simp at h
  | cons x xs ih =>
    intro a h
    by_cases hx : p x = true
    · rw [List.find?_cons_of_pos _ hx] at h
      obtain rfl := Option.some.inj h
      exact ⟨hx, [], xs, rfl, by simp⟩
    · rw [List.find?_cons_of_neg _ hx] at h
      obtain ⟨hpa, l₁, l₂, hsplit, hfail⟩ := ih h
      refine ⟨hpa, x :: l₁, l₂, by rw [hsplit]; rfl, ?_⟩
      intro y hy
      rcases List.mem_cons.mp hy with rfl | hy'
      · exact Bool.eq_false_iff.mpr hx
      · exact hfail y hy'

theorem find?_congr_local {α : Type} {p q : α → Bool} :
    ∀ (l : List α), (∀ x ∈ l, p x = q x) → l.find? p = l.find? q := by
  intro l
  induction l with
  | nil => intro _; rfl
  | cons x xs ih =>
    intro h
    have hx := h x (by simp)
    by_cases hpx : p x = true
    · rw [List.find?_cons_of_pos _ hpx, List.find?_cons_of_pos _ (hx ▸ hpx)]
    · have hqx : ¬ q x = true := by rw [← hx]; exact hpx
      rw [List.find?_cons_of_neg _ hpx, List.find?_cons_of_neg _ hqx]
      exact ih fun y hy => h y (by simp [hy])

theorem improves_lt {d : ℕ → ℕ → ℚ} {t : List ℕ} {i j : ℕ}
    (h : improves d t (i, j) = true) :
    tourLength d (reverseSegment t i j) < tourLength d t := by
  simpa [improves, decide_eq_true_eq] using h

theorem firstImproving_bounds {d : ℕ → ℕ → ℚ} {t : List ℕ} {i j : ℕ}
    (h : firstImproving d t = some (i, j)) :
    improves d t (i, j) = true ∧ 1 ≤ i ∧ i < j ∧ j + 2 ≤ t.length := by
  have h1 := List.find?_some h
  have h2 := List.mem_of_find?_eq_some h
  exact ⟨h1, mem_pairsList.mp h2⟩

/-! ### 2-opt preserves tour validity and never increases length -/

theorem validTour_twoOptAux {n : ℕ} (d : ℕ → ℕ → ℚ) :
    ∀ (fuel : ℕ) (t : List ℕ), ValidTour n t → ValidTour n (twoOptAux d fuel t) := by
  intro fuel
  induction fuel with
  | zero => intro t h; exact h
  | succ f ih =>
    intro t h
    simp only [twoOptAux]
    cases hf : firstImproving d t with
    | none => exact h
    | some p =>
      obtain ⟨i, j⟩ := p
      obtain ⟨-, hi, hij, hj⟩ := firstImproving_bounds hf
      exact ih _ (validTour_reverseSegment h hi hij hj)

theorem tourLength_twoOptAux_le (d : ℕ → ℕ → ℚ) :
    ∀ (fuel : ℕ) (t : List ℕ), tourLength d (twoOptAux d fuel t) ≤ tourLength d t := by
  intro fuel
  induction fuel with
  | zero => intro t; exact le_refl _
  | succ f ih =>
    intro t
    simp only [twoOptAux]
    cases hf : firstImproving d t with
    | none => exact le_refl _
    | some p =>
      obtain ⟨i, j⟩ := p
      obtain ⟨himp, -, -, -⟩ := firstImproving_bounds hf
      exact le_trans (ih _) (le_of_lt (improves_lt himp))

theorem validTour_nnTour (d : ℕ → ℕ → ℚ) (n : ℕ) (hn : 1 ≤ n) :
    ValidTour n (nnTour d n) := by
  have hperm := nnAux_perm d (n - 1) 0 (List.range' 1 (n - 1))
    (by simp [List.length_range'])
  have h1 : (nnAux d (n - 1) 0 (List.range' 1 (n - 1))).length = n - 1 := by
    rw [hperm.length_eq, List.length_range']
  refine ⟨?_, ?_, ?_, ?_⟩
  · simp only [nnTour, List.length_cons, List.length_append, h1, List.length_nil]
    omega
  · simp only [nnTour, List.head?_cons]
  · simp only [nnTour, ← List.cons_append]
    exact List.getLast?_concat _
  · simp only [nnTour, List.drop_one, List.tail_cons, List.dropLast_concat]
    exact hperm

/-- C1: for every distance matrix over `n ≥ 1` points (index 0 = origin), the
Tour Optimizer's output is a valid permutation tour: it has length `n + 1`,
begins and ends at the origin index 0, and the indices strictly between the
two origin occurrences are a permutation of the destination indices
`1 .. n-1` (each destination appears exactly once). -/
theorem c1_tour_validity (d : ℕ → ℕ → ℚ) (n : ℕ) (hn : 1 ≤ n) :
    ValidTour n (tourOptimizer d n) :=
  validTour_twoOptAux d (twoOptCap n) (nnTour d n) (validTour_nnTour d n hn)

/-- C3: the total tour length after 2-opt refinement is at most the length of
the nearest-neighbor seed tour; the total length is non-increasing across
2-opt iterations (for every fuel and tour); and every applied reversal — the
first improving pair found — strictly decreases the total length. -/
theorem c3_twoOpt_monotone (d : ℕ → ℕ → ℚ) (n : ℕ) :
    tourLength d (tourOptimizer d n) ≤ tourLength d (nnTour d n) ∧
    (∀ (fuel : ℕ) (t : List ℕ), tourLength d (twoOptAux d fuel t) ≤ tourLength d t) ∧
    (∀ (t : List ℕ) (i j : ℕ), firstImproving d t = some (i, j) →
      tourLength d (reverseSegment t i j) < tourLength d t) := by
  refine ⟨tourLength_twoOptAux_le d (twoOptCap n) (nnTour d n),
    tourLength_twoOptAux_le d, ?_⟩
  intro t i j hf
  exact improves_lt (firstImproving_bounds hf).1

/-! ### Determinism of the Tour Optimizer (congruence in the matrix data)

Two runs on the same distance matrix are modelled as runs on two matrix
functions that agree on all entries below `n`: the algorithm reads the
matrix only at point indices `< n`, so the results coincide. -/

theorem validTour_mem_lt_n {n : ℕ} {t : List ℕ} (hv : ValidTour n t) (hn : 1 ≤ n) :
    ∀ a ∈ t, a < n := by
  obtain ⟨hlen, hh, hl, hperm⟩ := hv
  intro a ha
  have hn2 : 2 ≤ t.length := by omega
  have hshape := tour_shape hn2 hh hl
  rw [hshape] at ha
  rcases List.mem_cons.mp ha with rfl | ha'
  · omega
  · rcases List.mem_append.mp ha' with hmid | hlast
    · have hr := hperm.mem_iff.mp hmid
      rw [List.mem_range'_1] at hr
      omega
    · simp only [List.mem_singleton] at hlast
      omega

theorem tourLength_congr {n : ℕ} {d₁ d₂ : ℕ → ℕ → ℚ}
    (hd : ∀ i j, i < n → j < n → d₁ i j = d₂ i j) :
    ∀ t : List ℕ, (∀ a ∈ t, a < n) → tourLength d₁ t = tourLength d₂ t := by
  intro t
  induction t with
  | nil => intro _; rfl
  | cons a rest ih =>
    intro hb
    cases rest with
    | nil => rfl
    | cons b rest' =>
      simp only [tourLength]
      rw [hd a b (hb a (by simp)) (hb b (by simp)),
        ih fun x hx => hb x (by simp [hx])]

theorem nnSelect_congr {n : ℕ} {d₁ d₂ : ℕ → ℕ → ℚ}
    (hd : ∀ i j, i < n → j < n → d₁ i j = d₂ i j) {cur : ℕ} (hcur : cur < n) :
    ∀ rem : List ℕ, (∀ y ∈ rem, y < n) → nnSelect d₁ cur rem = nnSelect d₂ cur rem := by
  intro rem
  induction rem with
  | nil => intro _; rfl
  | cons x xs ih =>
    intro hb
    simp only [nnSelect]
    rw [ih fun y hy => hb y (by simp [hy])]
    cases hs : nnSelect d₂ cur xs with
    | none => rfl
    | some b =>
      have hbmem : b ∈ xs := nnSelect_mem hs
      dsimp only
      rw [hd cur x hcur (hb x (by simp)), hd cur b hcur (hb b (by simp [hbmem]))]

theorem nnAux_congr {n : ℕ} {d₁ d₂ : ℕ → ℕ → ℚ}
    (hd : ∀ i j, i < n → j < n → d₁ i j = d₂ i j) :
    ∀ (fuel cur : ℕ) (rem : List ℕ), cur < n → (∀ y ∈ rem, y < n) →
      nnAux d₁ fuel cur rem = nnAux d₂ fuel cur rem := by
  intro fuel
  induction fuel with
  | zero => intro cur rem _ _; rfl
  | succ f ih =>
    intro cur rem hcur hb
    simp only [nnAux]
    rw [nnSelect_congr hd hcur rem hb]
    cases hs : nnSelect d₂ cur rem with
    | none => rfl
    | some c =>
      have hc : c ∈ rem := nnSelect_mem hs
      dsimp only
      rw [ih c (rem.erase c) (hb c hc) fun y hy => hb y (List.mem_of_mem_erase hy)]

theorem nnTour_congr {n : ℕ} {d₁ d₂ : ℕ → ℕ → ℚ} (hn : 1 ≤ n)
    (hd : ∀ i j, i < n → j < n → d₁ i j = d₂ i j) :
    nnTour d₁ n = nnTour d₂ n := by
  unfold nnTour
  rw [nnAux_congr hd (n - 1) 0 (List.range' 1 (n - 1)) (by omega) ?_]
  intro y hy
  rw [List.mem_range'_1] at hy
  omega

theorem improves_congr {n : ℕ} {d₁ d₂ : ℕ → ℕ → ℚ}
    (hd : ∀ i j, i < n → j < n → d₁ i j = d₂ i j) {t : List ℕ}
    (hb : ∀ a ∈ t, a < n) {i j : ℕ} (hij : i ≤ j + 1) :
    improves d₁ t (i, j) = improves d₂ t (i, j) := by
  simp only [improves]
  have hb' : ∀ a ∈ reverseSegment t i j, a < n := fun a ha =>
    hb a ((reverseSegment_perm t i j hij).mem_iff.mp ha)
  rw [tourLength_congr hd t hb, tourLength_congr hd _ hb']

theorem firstImproving_congr {n : ℕ} {d₁ d₂ : ℕ → ℕ → ℚ}
    (hd : ∀ i j, i < n → j < n → d₁ i j = d₂ i j) {t : List ℕ}
    (hb : ∀ a ∈ t, a < n) :
    firstImproving d₁ t = firstImproving d₂ t := by
  unfold firstImproving
  apply find?_congr_local
  intro p hp
  obtain ⟨i, j⟩ := p
  obtain ⟨h1, h2, h3⟩ := mem_pairsList.mp hp
  exact improves_congr hd hb (by omega)

theorem twoOptAux_congr {n : ℕ} {d₁ d₂ : ℕ → ℕ → ℚ}
    (hd : ∀ i j, i < n → j < n → d₁ i j = d₂ i j) :
    ∀ (fuel : ℕ) (t : List ℕ), (∀ a ∈ t, a < n) →
      twoOptAux d₁ fuel t = twoOptAux d₂ fuel t := by
  intro fuel
  induction fuel with
  | zero => intro t _; rfl
  | succ f ih =>
    intro t hb
    simp only [twoOptAux]
    rw [firstImproving_congr hd hb]
    cases hs : firstImproving d₂ t with
    | none => rfl
    | some p =>
      obtain ⟨i, j⟩ := p
      obtain ⟨-, hi, hij, hj⟩ := firstImproving_bounds hs
      exact ih _ fun a ha => hb a ((reverseSegment_perm t i j (by omega)).mem_iff.mp ha)

theorem tourOptimizer_congr {n : ℕ} {d₁ d₂ : ℕ → ℕ → ℚ} (hn : 1 ≤ n)
    (hd : ∀ i j, i < n → j < n → d₁ i j = d₂ i j) :
    tourOptimizer d₁ n = tourOptimizer d₂ n := by
  unfold tourOptimizer
  rw [nnTour_congr hn hd]
  exact twoOptAux_congr hd _ _ (validTour_mem_lt_n (validTour_nnTour d₂ n hn) hn)

/-- C8: the Tour Optimizer is deterministic.  Any two runs on the same
distance matrix (two matrix functions agreeing on all entries below `n`)
produce the same tour order and the same total distance; nearest-neighbor
construction picks the candidate that is minimal by distance and earliest in
the (index-ordered) candidate list — ties broken by lowest point index; and
2-opt applies the first improving reversal in the fixed earliest-pair-first
scan order `pairsList`. -/
theorem c8_determinism (d₁ d₂ : ℕ → ℕ → ℚ) (n : ℕ) (hn : 1 ≤ n)
    (hd : ∀ i j, i < n → j < n → d₁ i j = d₂ i j) :
    (tourOptimizer d₁ n = tourOptimizer d₂ n ∧
      tourLength d₁ (tourOptimizer d₁ n) = tourLength d₂ (tourOptimizer d₂ n)) ∧
    (∀ (cur : ℕ) (rem : List ℕ) (c : ℕ), nnSelect d₁ cur rem = some c →
      ∃ l₁ l₂, rem = l₁ ++ c :: l₂ ∧ (∀ y ∈ l₁, d₁ cur c < d₁ cur y) ∧
        (∀ y ∈ l₂, d₁ cur c ≤ d₁ cur y)) ∧
    (∀ (t : List ℕ) (i j : ℕ), firstImproving d₁ t = some (i, j) →
      improves d₁ t (i, j) = true ∧ ∃ l₁ l₂, pairsList t.length = l₁ ++ (i, j) :: l₂ ∧
        ∀ p ∈ l₁, improves d₁ t p = false) := by
  refine ⟨⟨tourOptimizer_congr hn hd, ?_⟩, ?_, ?_⟩
  · rw [tourOptimizer_congr hn hd]
    exact tourLength_congr hd _
      (validTour_mem_lt_n
        (validTour_twoOptAux d₂ (twoOptCap n) (nnTour d₂ n) (validTour_nnTour d₂ n hn)) hn)
  · intro cur rem c hsel
    exact nnSelect_split hsel
  · intro t i j hfi
    unfold firstImproving at hfi
    obtain ⟨himp, l₁, l₂, hsplit, hfail⟩ := find?_eq_some_split hfi
    exact ⟨himp, l₁, l₂, hsplit, hfail⟩


/-! ### Concrete witnesses for the Tour Optimizer claims -/

/-- A concrete all-zero 3-point distance matrix. -/
def dMat0 : ℕ → ℕ → ℚ := fun _ _ => 0

/-- A concrete matrix on which the first 2-opt scan finds an improving pair. -/
def dImp : ℕ → ℕ → ℚ := fun i j => if i = 0 ∧ j = 1 then 1 else 0

theorem c1_witness : (1 : ℕ) ≤ 3 ∧ ValidTour 3 (tourOptimizer dMat0 3) :=
  ⟨by decide, c1_tour_validity dMat0 3 (by decide)⟩

unseal Rat.add in
theorem c3_witness :
    firstImproving dImp [0, 1, 2, 3, 0] = some (1, 2) ∧
    tourLength dImp (reverseSegment [0, 1, 2, 3, 0] 1 2) < tourLength dImp [0, 1, 2, 3, 0] :=
  ⟨by decide, (c3_twoOpt_monotone dImp 4).2.2 [0, 1, 2, 3, 0] 1 2 (by decide)⟩

theorem c8_witness :
    ((1 : ℕ) ≤ 2 ∧ (∀ i j : ℕ, i < 2 → j < 2 → dMat0 i j = dMat0 i j)) ∧
    ((tourOptimizer dMat0 2 = tourOptimizer dMat0 2 ∧
        tourLength dMat0 (tourOptimizer dMat0 2) = tourLength dMat0 (tourOptimizer dMat0 2)) ∧
      (∀ (cur : ℕ) (rem : List ℕ) (c : ℕ), nnSelect dMat0 cur rem = some c →
        ∃ l₁ l₂, rem = l₁ ++ c :: l₂ ∧ (∀ y ∈ l₁, dMat0 cur c < dMat0 cur y) ∧
          (∀ y ∈ l₂, dMat0 cur c ≤ dMat0 cur y)) ∧
      (∀ (t : List ℕ) (i j : ℕ), firstImproving dMat0 t = some (i, j) →
        improves dMat0 t (i, j) = true ∧ ∃ l₁ l₂, pairsList t.length = l₁ ++ (i, j) :: l₂ ∧
          ∀ p ∈ l₁, improves dMat0 t p = false)) :=
  ⟨⟨by decide, fun _ _ _ _ => rfl⟩, c8_determinism dMat0 dMat0 2 (by decide) fun _ _ _ _ => rfl⟩


/-! ## Graph Store (spec §3, §4.1)

Modelled from the spec: the backend graph model (`server/main.py`) is not
among the provided sources.  Nodes are the integers `0 .. n-1` (identifiers
unique and stable); `w i j = some q` is a directed edge of weight `q`,
`none` means no edge; `coord` gives each node's (lat, lon).  The load-time
invariant that all weights are finite and non-negative is `Graph.Nonneg`. -/

structure Graph where
  n : ℕ
  w : ℕ → ℕ → Option ℚ
  coord : ℕ → ℚ × ℚ

/-- Load-time invariant (spec §3): every edge weight is non-negative. -/
def Graph.Nonneg (G : Graph) : Prop := ∀ i j q, G.w i j = some q → 0 ≤ q

/-- Graph Store membership test (spec §4.1). -/
def Graph.hasNode (G : Graph) (v : ℕ) : Prop := v < G.n

instance (G : Graph) (v : ℕ) : Decidable (G.hasNode v) := by
  unfold Graph.hasNode; infer_instance

/-! ## Walks

`VWalk G A u v c` is a walk from `u` to `v` of total weight `c` whose
interior nodes (nodes strictly between the endpoints) all satisfy `A`.
Unrestricted walks are `VWalk G (fun x => True)`. -/

inductive VWalk (G : Graph) (A : ℕ → Prop) : ℕ → ℕ → ℚ → Prop
  | nil (u : ℕ) (hu : u < G.n) : VWalk G A u u 0
  | edge (u v : ℕ) (q : ℚ) (hu : u < G.n) (hv : v < G.n) (he : G.w u v = some q) :
      VWalk G A u v q
  | cons (u v t : ℕ) (q c : ℚ) (hu : u < G.n) (hv : v < G.n) (he : G.w u v = some q)
      (hA : A v) (rest : VWalk G A v t c) : VWalk G A u t (q + c)

theorem VWalk.mono {G : Graph} {A B : ℕ → Prop} (hAB : ∀ x, A x → B x) :
    ∀ {u v : ℕ} {c : ℚ}, VWalk G A u v c → VWalk G B u v c := by
  intro u v c h
  induction h with
  | nil u hu => exact .nil u hu
  | edge u v q hu hv he => exact .edge u v q hu hv he
  | cons u v t q c hu hv he hA rest ih => exact .cons u v t q c hu hv he (hAB v hA) ih

theorem VWalk.nonneg {G : Graph} (hnn : G.Nonneg) {A : ℕ → Prop} :
    ∀ {u v : ℕ} {c : ℚ}, VWalk G A u v c → 0 ≤ c := by
  intro u v c h
  induction h with
  | nil u hu => exact le_refl 0
  | edge u v q hu hv he => exact hnn u v q he
  | cons u v t q c hu hv he hA rest ih =>
    have := hnn u v q he
    linarith

theorem VWalk.start_lt {G : Graph} {A : ℕ → Prop} {u v : ℕ} {c : ℚ}
    (h : VWalk G A u v c) : u < G.n := by
  cases h with
  | nil u hu => exact hu
  | edge u v q hu hv he => exact hu
  | cons u v t q c hu hv he hA rest => exact hu

theorem VWalk.stop_lt {G : Graph} {A : ℕ → Prop} {u v : ℕ} {c : ℚ}
    (h : VWalk G A u v c) : v < G.n := by
  induction h with
  | nil u hu => exact hu
  | edge u v q hu hv he => exact hv
  | cons u v t q c hu hv he hA rest ih => exact ih

theorem VWalk.append_edge {G : Graph} {A : ℕ → Prop} :
    ∀ {u y : ℕ} {c : ℚ}, VWalk G A u y c → A y →
      ∀ {v : ℕ} {q : ℚ}, G.w y v = some q → v < G.n → VWalk G A u v (c + q) := by
  intro u y c h
  induction h with
  | nil u hu =>
    intro hA v q he hv
    rw [zero_add]
    exact .edge u v q hu hv he
  | edge u y q0 hu hy he0 =>
    intro hA v q he hv
    exact .cons u y v q0 q hu hy he0 hA (.edge y v q hy hv he)
  | cons u x t q0 c0 hu hx he0 hAx rest ih =>
    intro hA v q he hv
    rw [add_assoc]
    exact .cons u x v q0 (c0 + q) hu hx he0 hAx (ih hA he hv)

theorem VWalk.trans {G : Graph} {A : ℕ → Prop} :
    ∀ {u m : ℕ} {c₁ : ℚ}, VWalk G A u m c₁ → A m →
      ∀ {v : ℕ} {c₂ : ℚ}, VWalk G A m v c₂ → VWalk G A u v (c₁ + c₂) := by
  intro u m c₁ h
  induction h with
  | nil u hu =>
    intro hA v c₂ h₂
    rw [zero_add]
    exact h₂
  | edge u m q hu hm he =>
    intro hA v c₂ h₂
    exact .cons u m v q c₂ hu hm he hA h₂
  | cons u x t q c hu hx he hAx rest ih =>
    intro hA v c₂ h₂
    rw [add_assoc]
    exact .cons u x v q (c + c₂) hu hx he hAx (ih hA h₂)

theorem VWalk.snoc_cases {G : Graph} {A : ℕ → Prop} :
    ∀ {u v : ℕ} {c : ℚ}, VWalk G A u v c →
      (u = v ∧ c = 0) ∨
      ∃ y c₁ q, VWalk G A u y c₁ ∧ (y = u ∨ A y) ∧ G.w y v = some q ∧
        v < G.n ∧ c = c₁ + q := by
  intro u v c h
  induction h with
  | nil u hu => exact .inl ⟨rfl, rfl⟩
  | edge u v q hu hv he =>
    exact .inr ⟨u, 0, q, .nil u hu, .inl rfl, he, hv, by rw [zero_add]⟩
  | cons u v t q c hu hv he hA rest ih =>
    rcases ih with ⟨rfl, rfl⟩ | ⟨y, c₁, q₂, hw, hy, he₂, ht, rfl⟩
    · exact .inr ⟨u, 0, q, .nil u hu, .inl rfl, he, hv, by rw [zero_add, add_zero]⟩
    · refine .inr ⟨y, q + c₁, q₂, .cons u v y q c₁ hu hv he hA hw, ?_, he₂, ht,
        by rw [add_assoc]⟩
      rcases hy with rfl | hAy
      · exact .inr hA
      · exact .inr hAy
  
theorem VWalk.split {G : Graph} (hnn : G.Nonneg) {A : ℕ → Prop} {k : ℕ} :
    ∀ {u v : ℕ} {c : ℚ}, VWalk G (fun x => A x ∨ x = k) u v c →
      VWalk G A u v c ∨
      ∃ c₁ c₂, VWalk G A u k c₁ ∧ VWalk G A k v c₂ ∧ c₁ + c₂ ≤ c := by
  intro u v c h
  induction h with
  | nil u hu => exact .inl (.nil u hu)
  | edge u v q hu hv he => exact .inl (.edge u v q hu hv he)
  | cons u x t q c hu hx he hA rest ih =>
    rcases hA with hAx | rfl
    · rcases ih with h1 | ⟨c₁, c₂, h1, h2, hle⟩
      · exact .inl (.cons u x t q c hu hx he hAx h1)
      · exact .inr ⟨q + c₁, c₂, .cons u x k q c₁ hu hx he hAx h1, h2, by linarith⟩
    · rcases ih with h1 | ⟨c₁, c₂, h1, h2, hle⟩
      · exact .inr ⟨q, c, .edge u x q hu hx he, h1, le_refl _⟩
      · have hc₁ : 0 ≤ c₁ := VWalk.nonneg hnn h1
        exact .inr ⟨q, c₂, .edge u x q hu hx he, h2, by linarith⟩


/-! ## Head-restricted walks

`HWalk G A u v c` is a walk from `u` to `v` of weight `c` in which every
node *except the last* satisfies `A` (the head of every traversed edge).
This is the standard notion for Dijkstra's invariant: with `A` = the set of
settled nodes, the fringe distance of `v` is the minimum over such walks. -/

inductive HWalk (G : Graph) (A : ℕ → Prop) : ℕ → ℕ → ℚ → Prop
  | nil (u : ℕ) (hu : u < G.n) : HWalk G A u u 0
  | cons (u v t : ℕ) (q c : ℚ) (hu : u < G.n) (hv : v < G.n) (he : G.w u v = some q)
      (hAu : A u) (rest : HWalk G A v t c) : HWalk G A u t (q + c)

theorem HWalk.hmono {G : Graph} {A B : ℕ → Prop} (hAB : ∀ x, A x → B x) :
    ∀ {u v : ℕ} {c : ℚ}, HWalk G A u v c → HWalk G B u v c := by
  intro u v c h
  induction h with
  | nil u hu => exact .nil u hu
  | cons u v t q c hu hv he hAu rest ih => exact .cons u v t q c hu hv he (hAB u hAu) ih

theorem HWalk.hnonneg {G : Graph} (hnn : G.Nonneg) {A : ℕ → Prop} :
    ∀ {u v : ℕ} {c : ℚ}, HWalk G A u v c → 0 ≤ c := by
  intro u v c h
  induction h with
  | nil u hu => exact le_refl 0
  | cons u v t q c hu hv he hAu rest ih =>
    have := hnn u v q he
    linarith

theorem HWalk.hstart_lt {G : Graph} {A : ℕ → Prop} {u v : ℕ} {c : ℚ}
    (h : HWalk G A u v c) : u < G.n := by
  cases h with
  | nil u hu => exact hu
  | cons u v t q c hu hv he hAu rest => exact hu

theorem HWalk.hstop_lt {G : Graph} {A : ℕ → Prop} {u v : ℕ} {c : ℚ}
    (h : HWalk G A u v c) : v < G.n := by
  induction h with
  | nil u hu => exact hu
  | cons u v t q c hu hv he hAu rest ih => exact ih

theorem HWalk.happend_edge {G : Graph} {A : ℕ → Prop} :
    ∀ {u y : ℕ} {c : ℚ}, HWalk G A u y c → A y →
      ∀ {v : ℕ} {q : ℚ}, G.w y v = some q → v < G.n → HWalk G A u v (c + q) := by
  intro u y c h
  induction h with
  | nil u hu =>
    intro hA v q he hv
    rw [zero_add, show q = q + 0 by rw [add_zero]]
    exact .cons u v v q 0 hu hv he hA (.nil v hv)
  | cons u x t q0 c0 hu hx he0 hAu rest ih =>
    intro hA v q he hv
    rw [add_assoc]
    exact .cons u x v q0 (c0 + q) hu hx he0 hAu (ih hA he hv)

theorem HWalk.hsnoc_cases {G : Graph} {A : ℕ → Prop} :
    ∀ {u v : ℕ} {c : ℚ}, HWalk G A u v c →
      (u = v ∧ c = 0) ∨
      ∃ y c₁ q, HWalk G A u y c₁ ∧ A y ∧ G.w y v = some q ∧ v < G.n ∧ c = c₁ + q := by
  intro u v c h
  induction h with
  | nil u hu => exact .inl ⟨rfl, rfl⟩
  | cons u v t q c hu hv he hAu rest ih =>
    rcases ih with ⟨rfl, rfl⟩ | ⟨y, c₁, q₂, hw, hy, he₂, ht, rfl⟩
    · exact .inr ⟨u, 0, q, .nil u hu, hAu, he, hv, by rw [zero_add, add_zero]⟩
    · exact .inr ⟨y, q + c₁, q₂, .cons u v y q c₁ hu hv he hAu hw, hy, he₂, ht,
        by rw [add_assoc]⟩

theorem HWalk.iff_vwalk {G : Graph} {u v : ℕ} {c : ℚ} :
    HWalk G (fun _ => True) u v c ↔ VWalk G (fun _ => True) u v c := by
  constructor
  · intro h
    induction h with
    | nil u hu => exact .nil u hu
    | cons u v t q c hu hv he hAu rest ih => exact .cons u v t q c hu hv he trivial ih
  · intro h
    induction h with
    | nil u hu => exact .nil u hu
    | edge u v q hu hv he =>
      rw [show q = q + 0 by rw [add_zero]]
      exact .cons u v v q 0 hu hv he trivial (.nil v hv)
    | cons u v t q c hu hv he hA rest ih => exact .cons u v t q c hu hv he trivial ih


/-! ## Shortest-Path Solver: Dijkstra (spec §4.2)

Modelled from the spec: standard relaxation over non-negative weights,
selecting at each step an unvisited node of minimal tentative distance
(the priority-queue minimum).  Produces, for every reachable node, the
minimal distance from the source and a predecessor pointer; unreachable
nodes keep infinite distance (`none`) and no predecessor. -/

structure DState where
  dist : ℕ → Option ℚ
  pred : ℕ → Option ℕ
  visited : List ℕ

/-- Unvisited nodes that currently have a finite tentative distance. -/
def fringe (G : Graph) (st : DState) : List ℕ :=
  (List.range G.n).filter fun v => decide (v ∉ st.visited) && decide (st.dist v ≠ none)

/-- First minimal element of the candidate list by tentative distance. -/
def pickMinAux (dist : ℕ → Option ℚ) : List ℕ → Option ℕ
  | [] => none
  | c :: cs =>
    match pickMinAux dist cs with
    | none => some c
    | some b => if dleB (dist c) (dist b) = true then some c else some b

/-- One Dijkstra step: mark `u` visited and relax all edges out of `u`
(updating distance and predecessor of every unvisited strictly-improved
neighbor). -/
def dijkStep (G : Graph) (st : DState) (u : ℕ) : DState :=
  let vis := st.visited ++ [u]
  { dist := fun v =>
      if v < G.n ∧ v ∉ vis ∧ dltB (dadd (st.dist u) (G.w u v)) (st.dist v) = true
      then dadd (st.dist u) (G.w u v) else st.dist v
    pred := fun v =>
      if v < G.n ∧ v ∉ vis ∧ dltB (dadd (st.dist u) (G.w u v)) (st.dist v) = true
      then some u else st.pred v
    visited := vis }

def dijkstraAux (G : Graph) : ℕ → DState → DState
  | 0, st => st
  | f + 1, st =>
    match pickMinAux st.dist (fringe G st) with
    | none => st
    | some u => dijkstraAux G f (dijkStep G st u)

def dijkInit (s : ℕ) : DState :=
  { dist := fun v => if v = s then some 0 else none
    pred := fun _ => none
    visited := [] }

def dijkstra (G : Graph) (s : ℕ) : DState := dijkstraAux G G.n (dijkInit s)

/-- Reconstruct the path to `v` by following predecessor pointers. -/
def predChain (pred : ℕ → Option ℕ) : ℕ → ℕ → List ℕ
  | 0, v => [v]
  | f + 1, v =>
    match pred v with
    | none => [v]
    | some u => predChain pred f u ++ [v]

/-- `reconstructPath` for the Dijkstra solver: `none` iff `v` is
unreachable from `s`. -/
def dijPath (G : Graph) (s v : ℕ) : Option (List ℕ) :=
  match (dijkstra G s).dist v with
  | none => none
  | some _ => some (predChain (dijkstra G s).pred (G.n + 1) v)

/-! ### Fringe and pick-min facts -/

theorem mem_fringe {G : Graph} {st : DState} {v : ℕ} :
    v ∈ fringe G st ↔ v < G.n ∧ v ∉ st.visited ∧ st.dist v ≠ none := by
  simp [fringe, List.mem_filter, List.mem_range, and_assoc]

theorem dltB_some_left {a b : Option ℚ} (h : dltB a b = true) : ∃ x, a = some x := by
  cases a with
  | none => simp at h
  | some x => exact ⟨x, rfl⟩

theorem dleB_any_none (a : Option ℚ) : dleB a none = true := by
  cases a <;> simp

theorem dleB_total (a b : Option ℚ) : dleB a b = true ∨ dleB b a = true := by
  cases a <;> cases b <;> simp
  exact le_total _ _

theorem pickMinAux_eq_none {dist : ℕ → Option ℚ} :
    ∀ {cands : List ℕ}, pickMinAux dist cands = none → cands = [] := by
  intro cands h
  cases cands with
  | nil => rfl
  | cons c cs =>
    simp only [pickMinAux] at h
    cases hr : pickMinAux dist cs with
    | none => simp [hr] at h
    | some b => simp only [hr] at h; split at h <;> simp_all

theorem pickMinAux_mem {dist : ℕ → Option ℚ} :
    ∀ {cands : List ℕ} {u : ℕ}, pickMinAux dist cands = some u → u ∈ cands := by
  intro cands
  induction cands with
  | nil => intro u h; simp [pickMinAux] at h
  | cons c cs ih =>
    intro u h
    simp only [pickMinAux] at h
    cases hr : pickMinAux dist cs with
    | none => simp only [hr, Option.some.injEq] at h; simp [h]
    | some b =>
      simp only [hr] at h
      split at h
      · simp only [Option.some.injEq] at h; simp [h]
      · simp only [Option.some.injEq] at h
        subst h
        simp [ih hr]

theorem pickMinAux_min {dist : ℕ → Option ℚ} :
    ∀ {cands : List ℕ} {u : ℕ}, pickMinAux dist cands = some u →
      ∀ y ∈ cands, dleB (dist u) (dist y) = true := by
  intro cands
  induction cands with
  | nil => intro u h; simp [pickMinAux] at h
  | cons c cs ih =>
    intro u h y hy
    simp only [pickMinAux] at h
    cases hr : pickMinAux dist cs with
    | none =>
      have : cs = [] := pickMinAux_eq_none hr
      subst this
      simp only [hr, Option.some.injEq] at h
      subst h
      rcases List.mem_cons.mp hy with rfl | hy'
      · simp
      · simp at hy'
    | some b =>
      simp only [hr] at h
      split at h
      · next hle =>
        simp only [Option.some.injEq] at h
        subst h
        rcases List.mem_cons.mp hy with hyc | hy'
        · rw [hyc]; exact dleB_refl _
        · exact dleB_trans hle (ih hr y hy')
      · next hnle =>
        simp only [Option.some.injEq] at h
        subst h
        rcases List.mem_cons.mp hy with hyc | hy'
        · rw [hyc]
          rcases dleB_total (dist c) (dist b) with h1 | h1
          · exact absurd h1 hnle
          · exact h1
        · exact ih hr y hy'

theorem pickMin_none_dist {G : Graph} {st : DState}
    (h : pickMinAux st.dist (fringe G st) = none) :
    ∀ v, v < G.n → v ∉ st.visited → st.dist v = none := by
  intro v hv hvis
  have := pickMinAux_eq_none h
  by_contra hd
  have : v ∈ fringe G st := mem_fringe.mpr ⟨hv, hvis, hd⟩
  simp_all

theorem pickMin_some_spec {G : Graph} {st : DState} {u : ℕ}
    (h : pickMinAux st.dist (fringe G st) = some u) :
    u < G.n ∧ u ∉ st.visited ∧ st.dist u ≠ none ∧
      ∀ y, y < G.n → y ∉ st.visited → dleB (st.dist u) (st.dist y) = true := by
  have hmem := mem_fringe.mp (pickMinAux_mem h)
  refine ⟨hmem.1, hmem.2.1, hmem.2.2, ?_⟩
  intro y hy hyvis
  by_cases hyd : st.dist y = none
  · rw [hyd]
    cases hud : st.dist u with
    | none => exact absurd hud hmem.2.2
    | some q => simp
  · exact pickMinAux_min h y (mem_fringe.mpr ⟨hy, hyvis, hyd⟩)


/-! ### The Dijkstra loop invariant -/

/-- The settled set of a Dijkstra state, as a predicate. -/
def inVis (st : DState) : ℕ → Prop := fun x => x ∈ st.visited

/-- Invariant of the Dijkstra main loop (source `s`):
settled nodes carry their exact shortest distance (achieved by a walk
through settled nodes, and a lower bound of every walk), fringe nodes carry
the exact minimum over walks whose non-final nodes are all settled, and
predecessor pointers record the relaxation that produced each distance,
pointing to an earlier settled node. -/
structure DInv (G : Graph) (s : ℕ) (st : DState) : Prop where
  nodup : st.visited.Nodup
  vis_lt : ∀ u ∈ st.visited, u < G.n
  nonneg_dist : ∀ v q, st.dist v = some q → 0 ≤ q
  vis_min : ∀ u ∈ st.visited, ∃ c, st.dist u = some c ∧
    HWalk G (inVis st) s u c ∧ ∀ c', HWalk G (fun _ => True) s u c' → c ≤ c'
  fringe_reach : ∀ v c, v < G.n → v ∉ st.visited → st.dist v = some c →
    HWalk G (inVis st) s v c
  fringe_min : ∀ v, v < G.n → v ∉ st.visited →
    ∀ c', HWalk G (inVis st) s v c' → dleB (st.dist v) (some c') = true
  pred_src : st.pred s = none
  pred_inv : ∀ v u, st.pred v = some u → v < G.n ∧ u ∈ st.visited ∧
    st.dist v = dadd (st.dist u) (G.w u v) ∧
    (v ∈ st.visited → List.Sublist [u, v] st.visited)
  pred_none : ∀ v, v < G.n → st.dist v ≠ none → st.pred v = none → v = s

theorem dInv_init (G : Graph) (s : ℕ) (hs : s < G.n) : DInv G s (dijkInit s) := by
  refine ⟨?_, ?_, ?_, ?_, ?_, ?_, ?_, ?_, ?_⟩
  · simp [dijkInit]
  · intro u hu; simp [dijkInit] at hu
  · intro v q h
    simp only [dijkInit] at h
    split at h
    · simp only [Option.some.injEq] at h
      rw [← h]
    · simp at h
  · intro u hu; simp [dijkInit] at hu
  · intro v c hv hvv h
    simp only [dijkInit] at h
    split at h
    · next heq =>
      subst heq
      simp only [Option.some.injEq] at h
      subst h
      exact .nil v hs
    · simp at h
  · intro v hv hvv c' hw
    cases hw with
    | nil v hv' => simp [dijkInit]
    | cons u v t q c hu hv' he hAu rest => simp [dijkInit, inVis] at hAu
  · rfl
  · intro v u h; simp [dijkInit] at h
  · intro v hv hd hp
    simp only [dijkInit] at hd
    by_contra hne
    rw [if_neg hne] at hd
    exact hd rfl

/-- Any walk from `s` to a node outside the settled list `S` can be cut at
its first node outside `S`, yielding an `S`-restricted walk of no larger
weight (weights are non-negative). -/
theorem hwalk_decomp {G : Graph} (hnn : G.Nonneg) {S : List ℕ} {s : ℕ} :
    ∀ {b t : ℕ} {c₂ : ℚ}, HWalk G (fun _ => True) b t c₂ → t ∉ S →
      ∀ {c₁ : ℚ}, HWalk G (fun x => x ∈ S) s b c₁ →
        ∃ y c₃, y ∉ S ∧ y < G.n ∧ HWalk G (fun x => x ∈ S) s y c₃ ∧ c₃ ≤ c₁ + c₂ := by
  intro b t c₂ h
  induction h with
  | nil b hb =>
    intro ht c₁ h₁
    exact ⟨b, c₁, ht, hb, h₁, by linarith⟩
  | cons b v t q c hb hv he hAb rest ih =>
    intro ht c₁ h₁
    by_cases hbS : b ∈ S
    · obtain ⟨y, c₃, hy, hyn, hw, hle⟩ := ih ht (h₁.happend_edge hbS he hv)
      exact ⟨y, c₃, hy, hyn, hw, by linarith⟩
    · have hq : 0 ≤ q := hnn b v q he
      have hc : 0 ≤ c := HWalk.hnonneg hnn rest
      exact ⟨b, c₁, hbS, hb, h₁, by linarith⟩


theorem dist_s_zero {G : Graph} {s : ℕ} (hs : s < G.n) {st : DState}
    (inv : DInv G s st) (hsvis : s ∉ st.visited) : st.dist s = some 0 := by
  have h1 := inv.fringe_min s hs hsvis 0 (.nil s hs)
  cases hd : st.dist s with
  | none => rw [hd] at h1; simp at h1
  | some q =>
    rw [hd] at h1
    simp only [dleB_some_some, decide_eq_true_eq] at h1
    have h2 := inv.nonneg_dist s q hd
    have : q = 0 := le_antisymm h1 h2
    rw [this]

theorem dInv_step {G : Graph} (hnn : G.Nonneg) {s : ℕ} (hs : s < G.n) {st : DState}
    (inv : DInv G s st) {u : ℕ}
    (hpick : pickMinAux st.dist (fringe G st) = some u) :
    DInv G s (dijkStep G st u) := by
  obtain ⟨hu_lt, hu_vis, hu_dist, hu_min⟩ := pickMin_some_spec hpick
  obtain ⟨cu, hcu⟩ : ∃ cu, st.dist u = some cu := by
    cases h : st.dist u with
    | none => exact absurd h hu_dist
    | some q => exact ⟨q, rfl⟩
  have hcu_nn : 0 ≤ cu := inv.nonneg_dist u cu hcu
  -- basic facts about the updated state
  have hvis' : (dijkStep G st u).visited = st.visited ++ [u] := rfl
  have hdist' : ∀ v, (dijkStep G st u).dist v =
      if v < G.n ∧ v ∉ st.visited ++ [u] ∧
        dltB (dadd (st.dist u) (G.w u v)) (st.dist v) = true
      then dadd (st.dist u) (G.w u v) else st.dist v := fun _ => rfl
  have hpred' : ∀ v, (dijkStep G st u).pred v =
      if v < G.n ∧ v ∉ st.visited ++ [u] ∧
        dltB (dadd (st.dist u) (G.w u v)) (st.dist v) = true
      then some u else st.pred v := fun _ => rfl
  have hsubA : ∀ x, inVis st x → inVis (dijkStep G st u) x := by
    intro x hx
    simp only [inVis, hvis', List.mem_append]
    exact .inl hx
  have hle_old : ∀ v, dleB ((dijkStep G st u).dist v) (st.dist v) = true := by
    intro v
    rw [hdist']
    split
    · next hc => exact dleB_of_dltB hc.2.2
    · exact dleB_refl _
  have hle_relax : ∀ v, v < G.n → v ∉ st.visited ++ [u] →
      dleB ((dijkStep G st u).dist v) (dadd (st.dist u) (G.w u v)) = true := by
    intro v hv hvv
    rw [hdist']
    split
    · exact dleB_refl _
    · next hc =>
      have hnd : ¬ dltB (dadd (st.dist u) (G.w u v)) (st.dist v) = true :=
        fun hdd => hc ⟨hv, hvv, hdd⟩
      exact dleB_of_not_dltB hnd
  have hunch : ∀ v, v ∈ st.visited ++ [u] → (dijkStep G st u).dist v = st.dist v := by
    intro v hv
    rw [hdist', if_neg]
    intro hc
    exact hc.2.1 hv
  have humem : u ∈ st.visited ++ [u] := List.mem_append.mpr (.inr (by simp))
  -- u's distance is globally minimal
  have u_global_min : ∀ c', HWalk G (fun _ => True) s u c' → cu ≤ c' := by
    intro c' hw
    obtain ⟨y, c₃, hyS, hyn, hyw, hle⟩ := hwalk_decomp hnn hw hu_vis (.nil s hs)
    have h1 := inv.fringe_min y hyn hyS c₃ hyw
    have h2 := hu_min y hyn hyS
    have h3 := dleB_trans h2 h1
    rw [hcu] at h3
    simp only [dleB_some_some, decide_eq_true_eq] at h3
    linarith
  have u_reach : HWalk G (inVis st) s u cu := inv.fringe_reach u cu hu_lt hu_vis hcu
  refine ⟨?_, ?_, ?_, ?_, ?_, ?_, ?_, ?_, ?_⟩
  · -- nodup
    rw [hvis']
    refine List.Nodup.append inv.nodup (List.nodup_singleton u) ?_
    intro a ha hb
    simp only [List.mem_singleton] at hb
    subst hb
    exact hu_vis ha
  · -- vis_lt
    intro v hv
    rw [hvis'] at hv
    rcases List.mem_append.mp hv with h1 | h1
    · exact inv.vis_lt v h1
    · simp only [List.mem_singleton] at h1
      subst h1
      exact hu_lt
  · -- nonneg_dist
    intro v q h
    rw [hdist'] at h
    split at h
    · obtain ⟨x, y, hx, hy, rfl⟩ := dadd_eq_some h
      rw [hcu] at hx
      simp only [Option.some.injEq] at hx
      subst hx
      have := hnn u v y hy
      linarith
    · exact inv.nonneg_dist v q h
  · -- vis_min
    intro y hy
    rw [hvis'] at hy
    rcases List.mem_append.mp hy with hyold | hyu
    · obtain ⟨c, hc, hwalk, hmin⟩ := inv.vis_min y hyold
      exact ⟨c, by rw [hunch y (List.mem_append.mpr (.inl hyold))]; exact hc,
        hwalk.hmono hsubA, hmin⟩
    · simp only [List.mem_singleton] at hyu
      subst hyu
      exact ⟨cu, by rw [hunch y humem]; exact hcu, u_reach.hmono hsubA, u_global_min⟩
  · -- fringe_reach
    intro v c hv hvv h
    rw [hdist'] at h
    split at h
    · obtain ⟨x, q, hx, hq, rfl⟩ := dadd_eq_some h
      rw [hcu] at hx
      simp only [Option.some.injEq] at hx
      subst hx
      exact (u_reach.hmono hsubA).happend_edge (by simp [inVis, hvis', humem]) hq hv
    · next hc =>
      have hvold : v ∉ st.visited := by
        intro hvs
        exact hvv (by rw [hvis']; exact List.mem_append.mpr (.inl hvs))
      exact (inv.fringe_reach v c hv hvold h).hmono hsubA
  · -- fringe_min
    intro v hv hvv c' hw
    have hvold : v ∉ st.visited := by
      intro hvs
      exact hvv (by rw [hvis']; exact List.mem_append.mpr (.inl hvs))
    rcases hw.hsnoc_cases with ⟨heq, rfl⟩ | ⟨y, c₁, q, hw₁, hyS', he, hvn, rfl⟩
    · subst heq
      have hsv : st.dist s = some 0 := dist_s_zero hs inv hvold
      have h1 := hle_old s
      rw [hsv] at h1
      exact h1
    · simp only [inVis, hvis', List.mem_append, List.mem_singleton] at hyS'
      rcases hyS' with hyvis | rfl
      · obtain ⟨cy, hcy, hwy, hminy⟩ := inv.vis_min y hyvis
        have hcyle : cy ≤ c₁ := hminy c₁ (hw₁.hmono fun x _ => trivial)
        have hwv : HWalk G (inVis st) s v (cy + q) := hwy.happend_edge hyvis he hv
        have h2 := inv.fringe_min v hv hvold (cy + q) hwv
        have h3 := dleB_trans (hle_old v) h2
        exact dleB_trans h3 (dleB_some_trans_lt (by linarith))
      · have hc₁ : cu ≤ c₁ := u_global_min c₁ (hw₁.hmono fun x _ => trivial)
        have h1 := hle_relax v hv (by rw [← hvis']; exact hvv)
        rw [hcu, he] at h1
        simp only [dadd_some_some] at h1
        exact dleB_trans h1 (dleB_some_trans_lt (by linarith))
  · -- pred_src
    rw [hpred']
    split
    · next hc =>
      exfalso
      obtain ⟨hsn, hsvis', hdlt⟩ := hc
      have hsvis : s ∉ st.visited := fun h => hsvis' (List.mem_append.mpr (.inl h))
      have hsz : st.dist s = some 0 := dist_s_zero hs inv hsvis
      rw [hsz, hcu] at hdlt
      cases hq : G.w u s with
      | none => rw [hq] at hdlt; simp at hdlt
      | some q =>
        rw [hq] at hdlt
        simp only [dadd_some_some, dltB_some_some, decide_eq_true_eq] at hdlt
        have := hnn u s q hq
        linarith
    · exact inv.pred_src
  · -- pred_inv
    intro v u₀ hp
    rw [hpred'] at hp
    split at hp
    · next hc =>
      obtain ⟨hv, hvv', hdlt⟩ := hc
      simp only [Option.some.injEq] at hp
      subst hp
      refine ⟨hv, by rw [hvis']; exact humem, ?_, ?_⟩
      · have h1 : (dijkStep G st u).dist v = dadd (st.dist u) (G.w u v) := by
          rw [hdist', if_pos ⟨hv, hvv', hdlt⟩]
        have h2 : (dijkStep G st u).dist u = st.dist u := hunch u humem
        rw [h1, h2]
      · intro hvvis'
        rw [hvis'] at hvvis'
        exact absurd hvvis' hvv'
    · next hc =>
      obtain ⟨hvn, hu₀vis, hdeq, hsub⟩ := inv.pred_inv v u₀ hp
      refine ⟨hvn, by rw [hvis']; exact List.mem_append.mpr (.inl hu₀vis), ?_, ?_⟩
      · have h1 : (dijkStep G st u).dist v = st.dist v := by
          rw [hdist', if_neg hc]
        have h2 : (dijkStep G st u).dist u₀ = st.dist u₀ :=
          hunch u₀ (List.mem_append.mpr (.inl hu₀vis))
        rw [h1, h2, hdeq]
      · intro hvvis'
        rw [hvis'] at hvvis' ⊢
        rcases List.mem_append.mp hvvis' with hvold | hvu
        · exact (hsub hvold).trans (List.sublist_append_left _ _)
        · simp only [List.mem_singleton] at hvu
          subst hvu
          have h3 : List.Sublist [u₀] st.visited := List.singleton_sublist.mpr hu₀vis
          exact List.Sublist.append h3 (List.Sublist.refl [v])
  · -- pred_none
    intro v hv hd hp
    rw [hpred'] at hp
    split at hp
    · simp at hp
    · next hc =>
      have h1 : (dijkStep G st u).dist v = st.dist v := by
        rw [hdist', if_neg hc]
      rw [h1] at hd
      exact inv.pred_none v hv hd hp


/-! ### Dijkstra: final state and distance correctness -/

/-- Weight of a concrete node path: sum of the traversed edge weights,
`none` if some consecutive pair is not an edge. -/
def legWeight (G : Graph) : List ℕ → Option ℚ
  | [] => some 0
  | [_] => some 0
  | u :: v :: rest => dadd (G.w u v) (legWeight G (v :: rest))

structure DFinal (G : Graph) (s : ℕ) (st : DState) : Prop where
  inv : DInv G s st
  compl : ∀ v, v < G.n → v ∉ st.visited → st.dist v = none

theorem dijkstraAux_spec {G : Graph} (hnn : G.Nonneg) {s : ℕ} (hs : s < G.n) :
    ∀ (fuel : ℕ) (st : DState), DInv G s st → st.visited.length + fuel = G.n →
      DFinal G s (dijkstraAux G fuel st) := by
  intro fuel
  induction fuel with
  | zero =>
    intro st inv hlen
    refine ⟨inv, ?_⟩
    intro v hv hvv
    exfalso
    have hsub : st.visited ⊆ List.range G.n := by
      intro x hx
      rw [List.mem_range]
      exact inv.vis_lt x hx
    have hsp := List.subperm_of_subset inv.nodup hsub
    have hperm : st.visited.Perm (List.range G.n) := by
      apply hsp.perm_of_length_le
      rw [List.length_range]
      omega
    exact hvv (hperm.mem_iff.mpr (List.mem_range.mpr hv))
  | succ f ih =>
    intro st inv hlen
    simp only [dijkstraAux]
    cases hp : pickMinAux st.dist (fringe G st) with
    | none => exact ⟨inv, pickMin_none_dist hp⟩
    | some u =>
      have hstep := dInv_step hnn hs inv hp
      have hlen' : (dijkStep G st u).visited.length + f = G.n := by
        show (st.visited ++ [u]).length + f = G.n
        rw [List.length_append]
        simp only [List.length_singleton]
        omega
      exact ih (dijkStep G st u) hstep hlen'

theorem dijkstra_final {G : Graph} (hnn : G.Nonneg) {s : ℕ} (hs : s < G.n) :
    DFinal G s (dijkstra G s) :=
  dijkstraAux_spec hnn hs G.n (dijkInit s) (dInv_init G s hs) (by simp [dijkInit])

theorem dijkstra_some_visited {G : Graph} (hnn : G.Nonneg) {s v : ℕ} (hs : s < G.n)
    (hv : v < G.n) {c : ℚ} (h : (dijkstra G s).dist v = some c) :
    v ∈ (dijkstra G s).visited := by
  by_contra hvv
  have := (dijkstra_final hnn hs).compl v hv hvv
  rw [this] at h
  exact Option.noConfusion h

theorem dijkstra_dist_some {G : Graph} (hnn : G.Nonneg) {s v : ℕ} (hs : s < G.n)
    (hv : v < G.n) {c : ℚ} (h : (dijkstra G s).dist v = some c) :
    HWalk G (fun _ => True) s v c ∧ ∀ c', HWalk G (fun _ => True) s v c' → c ≤ c' := by
  have hvv := dijkstra_some_visited hnn hs hv h
  obtain ⟨c₀, hc₀, hw, hmin⟩ := (dijkstra_final hnn hs).inv.vis_min v hvv
  rw [h] at hc₀
  simp only [Option.some.injEq] at hc₀
  subst hc₀
  exact ⟨hw.hmono fun x _ => trivial, hmin⟩

theorem dijkstra_dist_none {G : Graph} (hnn : G.Nonneg) {s v : ℕ} (hs : s < G.n)
    (hv : v < G.n) (h : (dijkstra G s).dist v = none) :
    ∀ c', ¬ HWalk G (fun _ => True) s v c' := by
  obtain ⟨inv, compl⟩ := dijkstra_final hnn hs
  intro c' hw
  by_cases hvv : v ∈ (dijkstra G s).visited
  · obtain ⟨c₀, hc₀, -, -⟩ := inv.vis_min v hvv
    rw [h] at hc₀
    exact Option.noConfusion hc₀
  · obtain ⟨y, c₃, hyS, hyn, hyw, hle⟩ := hwalk_decomp hnn hw hvv (.nil s hs)
    have h1 := inv.fringe_min y hyn hyS c₃ hyw
    rw [compl y hyn hyS] at h1
    simp at h1

/-! ### Dijkstra: predecessor-chain path reconstruction -/

theorem sublist_pair_indexOf {l : List ℕ} (hnd : l.Nodup) :
    ∀ {a b : ℕ}, List.Sublist [a, b] l → l.indexOf a < l.indexOf b := by
  induction l with
  | nil =>
    intro a b h
    cases h
  | cons x xs ih =>
    intro a b h
    have hnd' : xs.Nodup := (List.nodup_cons.mp hnd).2
    have hxxs : x ∉ xs := (List.nodup_cons.mp hnd).1
    cases h with
    | cons _ h' =>
      have ha : a ∈ xs := h'.subset (by simp)
      have hb : b ∈ xs := h'.subset (by simp)
      have hxa : x ≠ a := fun hc => hxxs (hc ▸ ha)
      have hxb : x ≠ b := fun hc => hxxs (hc ▸ hb)
      rw [List.indexOf_cons_ne xs hxa, List.indexOf_cons_ne xs hxb]
      have := ih hnd' h'
      omega
    | cons₂ _ h' =>
      have hb : b ∈ xs := h'.subset (by simp)
      have hxb : x ≠ b := fun hc => hxxs (hc ▸ hb)
      rw [List.indexOf_cons_self, List.indexOf_cons_ne xs hxb]
      omega

theorem legWeight_append {G : Graph} :
    ∀ {p : List ℕ} {y : ℕ}, p.getLast? = some y →
      ∀ v, legWeight G (p ++ [v]) = dadd (legWeight G p) (G.w y v) := by
  intro p
  induction p with
  | nil => intro y h v; simp at h
  | cons a rest ih =>
    intro y h v
    cases rest with
    | nil =>
      have ha : a = y := by simpa using h
      subst ha
      show dadd (G.w a v) (some 0) = dadd (some 0) (G.w a v)
      cases G.w a v with
      | none => simp
      | some q => simp only [dadd_some_some]; rw [add_zero, zero_add]
    | cons b rest' =>
      have h' : (b :: rest').getLast? = some y := by
        rw [← h]
        exact (List.getLast?_append_of_ne_nil [a] (by simp)).symm
      show dadd (G.w a b) (legWeight G ((b :: rest') ++ [v])) =
        dadd (dadd (G.w a b) (legWeight G (b :: rest'))) (G.w y v)
      rw [ih h' v, dadd_assoc]


theorem predChain_spec {G : Graph} (hnn : G.Nonneg) {s : ℕ} (hs : s < G.n) :
    ∀ (N : ℕ), ∀ (v : ℕ) (c : ℚ), v < G.n → (dijkstra G s).dist v = some c →
      (dijkstra G s).visited.indexOf v ≤ N →
      ∀ fuel, N < fuel →
        (predChain (dijkstra G s).pred fuel v).head? = some s ∧
        (predChain (dijkstra G s).pred fuel v).getLast? = some v ∧
        legWeight G (predChain (dijkstra G s).pred fuel v) = some c := by
  intro N
  induction N using Nat.strong_induction_on with
  | _ N ih =>
    intro v c hv hc hidx fuel hfuel
    cases fuel with
    | zero => omega
    | succ f =>
      have hfin := dijkstra_final hnn hs
      cases hp : (dijkstra G s).pred v with
      | none =>
        have hveq : v = s := hfin.inv.pred_none v hv (by rw [hc]; simp) hp
        subst hveq
        have hvv := dijkstra_some_visited hnn hs hv hc
        obtain ⟨c₀, hc₀, hw, hmin⟩ := hfin.inv.vis_min v hvv
        rw [hc] at hc₀
        simp only [Option.some.injEq] at hc₀
        subst hc₀
        have h0 : c ≤ 0 := hmin 0 (.nil v hv)
        have h1 : 0 ≤ c := hfin.inv.nonneg_dist v c hc
        have hc0 : c = 0 := le_antisymm h0 h1
        subst hc0
        simp [predChain, hp, legWeight]
      | some u =>
        obtain ⟨hvn, huvis, hdeq, hsub⟩ := hfin.inv.pred_inv v u hp
        have hvv := dijkstra_some_visited hnn hs hv hc
        have hsubl := hsub hvv
        have hidxlt : (dijkstra G s).visited.indexOf u < (dijkstra G s).visited.indexOf v :=
          sublist_pair_indexOf hfin.inv.nodup hsubl
        obtain ⟨cu, hcu, -, -⟩ := hfin.inv.vis_min u huvis
        rw [hc, hcu] at hdeq
        cases hq : G.w u v with
        | none => rw [hq] at hdeq; simp at hdeq
        | some q =>
          rw [hq] at hdeq
          simp only [dadd_some_some, Option.some.injEq] at hdeq
          have hun : u < G.n := hfin.inv.vis_lt u huvis
          obtain ⟨hh, hl, hwgt⟩ := ih ((dijkstra G s).visited.indexOf u) (by omega)
            u cu hun hcu (le_refl _) f (by omega)
          have hchain : predChain (dijkstra G s).pred (f + 1) v =
              predChain (dijkstra G s).pred f u ++ [v] := by
            simp [predChain, hp]
          rw [hchain]
          refine ⟨?_, List.getLast?_concat _, ?_⟩
          · cases hpc : predChain (dijkstra G s).pred f u with
            | nil => rw [hpc] at hh; simp at hh
            | cons a t =>
              rw [hpc] at hh
              simp only [List.head?_cons] at hh
              simp [hh]
          · rw [legWeight_append hl v, hwgt, hq]
            simp only [dadd_some_some]
            rw [hdeq]

theorem visited_length_le {G : Graph} (hnn : G.Nonneg) {s : ℕ} (hs : s < G.n) :
    (dijkstra G s).visited.length ≤ G.n := by
  have hfin := dijkstra_final hnn hs
  have hsub : (dijkstra G s).visited ⊆ List.range G.n := by
    intro x hx
    rw [List.mem_range]
    exact hfin.inv.vis_lt x hx
  have := (List.subperm_of_subset hfin.inv.nodup hsub).length_le
  rwa [List.length_range] at this

theorem dijPath_spec {G : Graph} (hnn : G.Nonneg) {s v : ℕ} (hs : s < G.n) (hv : v < G.n)
    {c : ℚ} (hc : (dijkstra G s).dist v = some c) :
    ∃ p, dijPath G s v = some p ∧ p.head? = some s ∧ p.getLast? = some v ∧
      legWeight G p = some c := by
  have hvv := dijkstra_some_visited hnn hs hv hc
  have hidx : (dijkstra G s).visited.indexOf v ≤ G.n := by
    have h1 := List.indexOf_lt_length.mpr hvv
    have h2 := visited_length_le hnn hs
    omega
  obtain ⟨hh, hl, hwgt⟩ := predChain_spec hnn hs G.n v c hv hc hidx (G.n + 1) (by omega)
  refine ⟨predChain (dijkstra G s).pred (G.n + 1) v, ?_, hh, hl, hwgt⟩
  simp only [dijPath, hc]

theorem dijkstra_dist_self {G : Graph} (hnn : G.Nonneg) {s : ℕ} (hs : s < G.n) :
    (dijkstra G s).dist s = some 0 := by
  obtain ⟨inv, compl⟩ := dijkstra_final hnn hs
  by_cases hsv : s ∈ (dijkstra G s).visited
  · obtain ⟨c, hc, hw, hmin⟩ := inv.vis_min s hsv
    have h0 : c ≤ 0 := hmin 0 (.nil s hs)
    have h1 : 0 ≤ c := inv.nonneg_dist s c hc
    exact hc.trans (by rw [le_antisymm h0 h1])
  · exact dist_s_zero hs inv hsv

theorem dijPath_self {G : Graph} (hnn : G.Nonneg) {s : ℕ} (hs : s < G.n) :
    dijPath G s s = some [s] := by
  have hd := dijkstra_dist_self hnn hs
  have hp : (dijkstra G s).pred s = none := (dijkstra_final hnn hs).inv.pred_src
  simp only [dijPath, hd]
  simp [predChain, hp]


/-! ## Shortest-Path Solver: Floyd–Warshall (spec §4.2)

Modelled from the spec: the all-pairs dynamic program over allowed
intermediate nodes `0 .. k-1`, updating a pair only on strict improvement.
`via i j` records the intermediate node through which `d i j` was last
improved (`none` = the initial direct edge / diagonal); it is the stored
path reference from which concrete paths are reconstructed (spec §4.3
allows any stored reference sufficient to reconstruct the path; a next-hop
table is derivable from it). -/

structure FWState where
  d : ℕ → ℕ → Option ℚ
  via : ℕ → ℕ → Option ℕ

def fwInit (G : Graph) : FWState :=
  { d := fun i j => if i = j then some 0 else G.w i j
    via := fun _ _ => none }

def fwUpdate (G : Graph) (st : FWState) (k : ℕ) : FWState :=
  { d := fun i j =>
      if dltB (dadd (st.d i k) (st.d k j)) (st.d i j) = true
      then dadd (st.d i k) (st.d k j) else st.d i j
    via := fun i j =>
      if dltB (dadd (st.d i k) (st.d k j)) (st.d i j) = true
      then some k else st.via i j }

def fwAux (G : Graph) : ℕ → FWState
  | 0 => fwInit G
  | k + 1 => fwUpdate G (fwAux G k) k

def floydWarshall (G : Graph) : FWState := fwAux G G.n

/-- Reconstruct the concrete node path recorded by the `via` table. -/
def fwPath (G : Graph) (st : FWState) : ℕ → ℕ → ℕ → Option (List ℕ)
  | 0, _, _ => none
  | f + 1, i, j =>
    if i = j then some [i]
    else
      match st.via i j with
      | none => if G.w i j = none then none else some [i, j]
      | some k =>
        match fwPath G st f i k, fwPath G st f k j with
        | some p₁, some p₂ => some (p₁ ++ p₂.tail)
        | _, _ => none

/-- `reconstructPath` for the Floyd–Warshall solver. -/
def fwPathTop (G : Graph) (u v : ℕ) : Option (List ℕ) :=
  match (floydWarshall G).d u v with
  | none => none
  | some _ => fwPath G (floydWarshall G) (G.n + 1) u v

/-! ### The Floyd–Warshall stage invariant -/

structure FWInv (G : Graph) (k : ℕ) (st : FWState) : Prop where
  reach : ∀ i j c, i < G.n → j < G.n → st.d i j = some c →
    VWalk G (fun x => x < k) i j c
  minB : ∀ i j, i < G.n → j < G.n → ∀ c', VWalk G (fun x => x < k) i j c' →
    dleB (st.d i j) (some c') = true
  viaP : ∀ i j m, i < G.n → j < G.n → st.via i j = some m → m < k ∧ m ≠ i ∧ m ≠ j ∧
    m < G.n ∧ dadd (st.d i m) (st.d m j) = st.d i j ∧
    (∀ m', st.via i m = some m' → m' < m) ∧ (∀ m'', st.via m j = some m'' → m'' < m)
  viaSome : ∀ i j m, i < G.n → j < G.n → st.via i j = some m → st.d i j ≠ none
  viaNone : ∀ i j, i < G.n → j < G.n → st.via i j = none → st.d i j = (fwInit G).d i j

theorem fwInv_diag {G : Graph} (hnn : G.Nonneg) {k : ℕ} {st : FWState}
    (inv : FWInv G k st) {i : ℕ} (hi : i < G.n) : st.d i i = some 0 := by
  have h1 := inv.minB i i hi hi 0 (.nil i hi)
  cases hd : st.d i i with
  | none => rw [hd] at h1; simp at h1
  | some c =>
    rw [hd] at h1
    simp only [dleB_some_some, decide_eq_true_eq] at h1
    have hw := inv.reach i i c hi hi hd
    have h2 := VWalk.nonneg hnn hw
    rw [le_antisymm h1 h2]

theorem fwInv_nonneg {G : Graph} (hnn : G.Nonneg) {k : ℕ} {st : FWState}
    (inv : FWInv G k st) {i j : ℕ} (hi : i < G.n) (hj : j < G.n) {c : ℚ}
    (hd : st.d i j = some c) : 0 ≤ c :=
  VWalk.nonneg hnn (inv.reach i j c hi hj hd)

theorem fwInv_init (G : Graph) (hnn : G.Nonneg) : FWInv G 0 (fwInit G) := by
  refine ⟨?_, ?_, ?_, ?_, ?_⟩
  · intro i j c hi hj h
    simp only [fwInit] at h
    split at h
    · next heq =>
      subst heq
      simp only [Option.some.injEq] at h
      subst h
      exact .nil i hi
    · exact .edge i j c hi hj h
  · intro i j hi hj c' hw
    cases hw with
    | nil => simp [fwInit]
    | edge =>
      rename_i hi' hj' he
      simp only [fwInit]
      split
      · next heq =>
        subst heq
        have := hnn _ _ _ he
        simpa using this
      · rw [he]
        simp
    | cons =>
      rename_i hA rest
      exact absurd hA (by omega)
  · intro i j m hi hj h; simp [fwInit] at h
  · intro i j m hi hj h; simp [fwInit] at h
  · intro i j hi hj h; rfl


theorem fwInv_step {G : Graph} (hnn : G.Nonneg) {k : ℕ} {st : FWState}
    (hk : k < G.n) (inv : FWInv G k st) : FWInv G (k + 1) (fwUpdate G st k) := by
  have hd' : ∀ i j, (fwUpdate G st k).d i j =
      if dltB (dadd (st.d i k) (st.d k j)) (st.d i j) = true
      then dadd (st.d i k) (st.d k j) else st.d i j := fun _ _ => rfl
  have hv' : ∀ i j, (fwUpdate G st k).via i j =
      if dltB (dadd (st.d i k) (st.d k j)) (st.d i j) = true
      then some k else st.via i j := fun _ _ => rfl
  have hdiag : st.d k k = some 0 := fwInv_diag hnn inv hk
  have hle : ∀ i j, dleB ((fwUpdate G st k).d i j) (st.d i j) = true := by
    intro i j
    rw [hd']
    split
    · next hc => exact dleB_of_dltB hc
    · exact dleB_refl _
  have hle2 : ∀ i j, dleB ((fwUpdate G st k).d i j) (dadd (st.d i k) (st.d k j)) = true := by
    intro i j
    rw [hd']
    split
    · exact dleB_refl _
    · next hc => exact dleB_of_not_dltB hc
  have hik_cond : ∀ i, ¬ dltB (dadd (st.d i k) (st.d k k)) (st.d i k) = true := by
    intro i
    rw [hdiag, dadd_zero_right, dltB_irrefl]
    simp
  have hkj_cond : ∀ j, ¬ dltB (dadd (st.d k k) (st.d k j)) (st.d k j) = true := by
    intro j
    rw [hdiag, dadd_zero_left, dltB_irrefl]
    simp
  have hik_unch : ∀ i, (fwUpdate G st k).d i k = st.d i k := by
    intro i
    rw [hd', if_neg (hik_cond i)]
  have hkj_unch : ∀ j, (fwUpdate G st k).d k j = st.d k j := by
    intro j
    rw [hd', if_neg (hkj_cond j)]
  have hik_vunch : ∀ i, (fwUpdate G st k).via i k = st.via i k := by
    intro i
    rw [hv', if_neg (hik_cond i)]
  have hkj_vunch : ∀ j, (fwUpdate G st k).via k j = st.via k j := by
    intro j
    rw [hv', if_neg (hkj_cond j)]
  have hconv2 : ∀ {i j : ℕ} {c : ℚ}, VWalk G (fun x => x < k) i j c →
      VWalk G (fun x => x < k + 1) i j c :=
    fun h => h.mono (by intro x hx; omega)
  have reach' : ∀ i j c, i < G.n → j < G.n → (fwUpdate G st k).d i j = some c →
      VWalk G (fun x => x < k + 1) i j c := by
    intro i j c hi hj h
    rw [hd'] at h
    split at h
    · obtain ⟨c₁, c₂, h1, h2, rfl⟩ := dadd_eq_some h
      exact VWalk.trans (hconv2 (inv.reach i k c₁ hi hk h1)) (by omega)
        (hconv2 (inv.reach k j c₂ hk hj h2))
    · exact hconv2 (inv.reach i j c hi hj h)
  have minB' : ∀ i j, i < G.n → j < G.n → ∀ c', VWalk G (fun x => x < k + 1) i j c' →
      dleB ((fwUpdate G st k).d i j) (some c') = true := by
    intro i j hi hj c' hw
    have hw' : VWalk G (fun x => x < k ∨ x = k) i j c' :=
      hw.mono (by intro x hx; omega)
    rcases VWalk.split hnn hw' with h1 | ⟨c₁, c₂, h1, h2, hle3⟩
    · exact dleB_trans (hle i j) (inv.minB i j hi hj c' h1)
    · have m1 := inv.minB i k hi hk c₁ h1
      have m2 := inv.minB k j hk hj c₂ h2
      have m3 : dleB (dadd (st.d i k) (st.d k j)) (some (c₁ + c₂)) = true := by
        have hm := dleB_dadd_mono m1 m2
        simpa [dadd_some_some] using hm
      exact dleB_trans (dleB_trans (hle2 i j) m3) (dleB_some_trans_lt hle3)
  refine ⟨reach', minB', ?_, ?_, ?_⟩
  · intro i j m hi hj hvia
    rw [hv'] at hvia
    split at hvia
    · next hcond =>
      obtain rfl : k = m := Option.some.inj hvia
      have hki : k ≠ i := by
        intro h
        subst h
        exact hkj_cond j hcond
      have hkj : k ≠ j := by
        intro h
        subst h
        exact hik_cond i hcond
      refine ⟨by omega, hki, hkj, hk, ?_, ?_, ?_⟩
      · rw [hik_unch i, hkj_unch j, hd', if_pos hcond]
      · intro m' h
        rw [hik_vunch i] at h
        exact (inv.viaP i k m' hi hk h).1
      · intro m'' h
        rw [hkj_vunch j] at h
        exact (inv.viaP k j m'' hk hj h).1
    · next hcond =>
      obtain ⟨hmk, hmi, hmj, hmn, hdadd, hn1, hn2⟩ := inv.viaP i j m hi hj hvia
      have hdij_some := inv.viaSome i j m hi hj hvia
      obtain ⟨c, hc⟩ : ∃ c, st.d i j = some c := by
        cases h : st.d i j with
        | none => exact absurd h hdij_some
        | some q => exact ⟨q, rfl⟩
      have hcomp : dadd (st.d i m) (st.d m j) = some c := by rw [hdadd, hc]
      obtain ⟨a, b, ha, hb, hab⟩ := dadd_eq_some hcomp
      have hdij' : (fwUpdate G st k).d i j = st.d i j := by rw [hd', if_neg hcond]
      have him : (fwUpdate G st k).d i m = st.d i m := by
        rw [hd']
        split
        · next hupd =>
          exfalso
          obtain ⟨a', ha'⟩ := dltB_some_left hupd
          have hwim : VWalk G (fun x => x < k + 1) i m a' :=
            reach' i m a' hi hmn (by rw [hd', if_pos hupd]; exact ha')
          have hlt : a' < a := by
            rw [ha', ha] at hupd
            simpa [dltB_some_some, decide_eq_true_eq] using hupd
          obtain ⟨b', hb', hble⟩ : ∃ b', (fwUpdate G st k).d m j = some b' ∧ b' ≤ b := by
            have h1 := hle m j
            rw [hb] at h1
            cases h2 : (fwUpdate G st k).d m j with
            | none => rw [h2] at h1; simp at h1
            | some q =>
              rw [h2] at h1
              simp only [dleB_some_some, decide_eq_true_eq] at h1
              exact ⟨q, rfl, h1⟩
          have hwmj : VWalk G (fun x => x < k + 1) m j b' :=
            reach' m j b' hmn hj hb'
          have hwij : VWalk G (fun x => x < k + 1) i j (a' + b') :=
            VWalk.trans hwim (by omega) hwmj
          have h3 := minB' i j hi hj (a' + b') hwij
          rw [hdij', hc] at h3
          simp only [dleB_some_some, decide_eq_true_eq] at h3
          linarith
        · rfl
      have hmj' : (fwUpdate G st k).d m j = st.d m j := by
        rw [hd']
        split
        · next hupd =>
          exfalso
          obtain ⟨b', hb'⟩ := dltB_some_left hupd
          have hwmj : VWalk G (fun x => x < k + 1) m j b' :=
            reach' m j b' hmn hj (by rw [hd', if_pos hupd]; exact hb')
          have hlt : b' < b := by
            rw [hb', hb] at hupd
            simpa [dltB_some_some, decide_eq_true_eq] using hupd
          have hwim : VWalk G (fun x => x < k + 1) i m a :=
            reach' i m a hi hmn (by rw [him]; exact ha)
          have hwij : VWalk G (fun x => x < k + 1) i j (a + b') :=
            VWalk.trans hwim (by omega) hwmj
          have h3 := minB' i j hi hj (a + b') hwij
          rw [hdij', hc] at h3
          simp only [dleB_some_some, decide_eq_true_eq] at h3
          linarith
        · rfl
      have hvim : (fwUpdate G st k).via i m = st.via i m := by
        rw [hv']
        split
        · next hupd =>
          exfalso
          have h1 : (fwUpdate G st k).d i m = dadd (st.d i k) (st.d k m) := by
            rw [hd', if_pos hupd]
          rw [him] at h1
          rw [h1] at hupd
          rw [dltB_irrefl] at hupd
          simp at hupd
        · rfl
      have hvmj : (fwUpdate G st k).via m j = st.via m j := by
        rw [hv']
        split
        · next hupd =>
          exfalso
          have h1 : (fwUpdate G st k).d m j = dadd (st.d m k) (st.d k j) := by
            rw [hd', if_pos hupd]
          rw [hmj'] at h1
          rw [h1] at hupd
          rw [dltB_irrefl] at hupd
          simp at hupd
        · rfl
      refine ⟨by omega, hmi, hmj, hmn, ?_, ?_, ?_⟩
      · rw [him, hmj', hdij', hdadd]
      · intro m' h
        rw [hvim] at h
        exact hn1 m' h
      · intro m'' h
        rw [hvmj] at h
        exact hn2 m'' h
  · intro i j m hi hj hvia
    rw [hv'] at hvia
    rw [hd']
    split at hvia
    · next hcond =>
      rw [if_pos hcond]
      obtain ⟨x, hx⟩ := dltB_some_left hcond
      rw [hx]
      simp
    · next hcond =>
      rw [if_neg hcond]
      exact inv.viaSome i j m hi hj hvia
  · intro i j hi hj hvia
    rw [hv'] at hvia
    split at hvia
    · exact absurd hvia (by simp)
    · next hcond =>
      rw [hd', if_neg hcond]
      exact inv.viaNone i j hi hj hvia


theorem fwInv_aux (G : Graph) (hnn : G.Nonneg) : ∀ k, k ≤ G.n → FWInv G k (fwAux G k) := by
  intro k
  induction k with
  | zero => intro _; exact fwInv_init G hnn
  | succ m ih =>
    intro hm
    exact fwInv_step hnn (by omega) (ih (by omega))

theorem fwInv_final (G : Graph) (hnn : G.Nonneg) : FWInv G G.n (floydWarshall G) :=
  fwInv_aux G hnn G.n (le_refl _)

theorem vwalk_lt_n {G : Graph} :
    ∀ {u v : ℕ} {c : ℚ}, VWalk G (fun _ => True) u v c →
      VWalk G (fun x => x < G.n) u v c := by
  intro u v c h
  induction h with
  | nil u hu => exact .nil u hu
  | edge u v q hu hv he => exact .edge u v q hu hv he
  | cons u v t q c hu hv he hA rest ih => exact .cons u v t q c hu hv he hv ih

theorem legWeight_glue {G : Graph} :
    ∀ {p : List ℕ} {y : ℕ}, p.getLast? = some y →
      ∀ t, legWeight G (p ++ t) = dadd (legWeight G p) (legWeight G (y :: t)) := by
  intro p
  induction p with
  | nil => intro y h t; simp at h
  | cons a rest ih =>
    intro y h t
    cases rest with
    | nil =>
      have ha : a = y := by simpa using h
      subst ha
      show legWeight G ([a] ++ t) = dadd (some 0) (legWeight G (a :: t))
      rw [dadd_zero_left]
      rfl
    | cons b rest' =>
      have h' : (b :: rest').getLast? = some y := by
        rw [← h]
        exact (List.getLast?_append_of_ne_nil [a] (by simp)).symm
      show dadd (G.w a b) (legWeight G ((b :: rest') ++ t)) =
        dadd (dadd (G.w a b) (legWeight G (b :: rest'))) (legWeight G (y :: t))
      rw [ih h' t, dadd_assoc]

theorem fwPath_spec {G : Graph} (hnn : G.Nonneg) :
    ∀ (fuel : ℕ) (i j : ℕ) (c : ℚ), i < G.n → j < G.n →
      (floydWarshall G).d i j = some c →
      1 ≤ fuel →
      (∀ m, (floydWarshall G).via i j = some m → m + 2 ≤ fuel) →
      ∃ p, fwPath G (floydWarshall G) fuel i j = some p ∧ p.head? = some i ∧
        p.getLast? = some j ∧ legWeight G p = some c := by
  intro fuel
  induction fuel with
  | zero =>
    intro i j c _ _ _ h1 _
    omega
  | succ f ih =>
    intro i j c hi hj hc h1 h2
    by_cases hij : i = j
    · subst hij
      have hd := fwInv_diag hnn (fwInv_final G hnn) hi
      rw [hc] at hd
      simp only [Option.some.injEq] at hd
      refine ⟨[i], by simp [fwPath], rfl, rfl, ?_⟩
      show some 0 = some c
      rw [hd]
    · cases hvia : (floydWarshall G).via i j with
      | none =>
        have hinit := (fwInv_final G hnn).viaNone i j hi hj hvia
        rw [hc] at hinit
        simp only [fwInit, if_neg hij] at hinit
        have hw : G.w i j = some c := hinit.symm
        refine ⟨[i, j], ?_, rfl, rfl, ?_⟩
        · simp [fwPath, hij, hvia, hw]
        · show dadd (G.w i j) (some 0) = some c
          rw [dadd_zero_right]
          exact hw
      | some k =>
        obtain ⟨hkk, hki, hkj, hkn, hdadd, hn1, hn2⟩ :=
          (fwInv_final G hnn).viaP i j k hi hj hvia
        have hcomp : dadd ((floydWarshall G).d i k) ((floydWarshall G).d k j) = some c := by
          rw [hdadd, hc]
        obtain ⟨c₁, c₂, h1', h2', rfl⟩ := dadd_eq_some hcomp
        have hkf := h2 k hvia
        have hf1 : 1 ≤ f := by omega
        obtain ⟨p₁, hp₁, hh₁, hl₁, hw₁⟩ := ih i k c₁ hi hkn h1' hf1
          (fun m hm => by have := hn1 m hm; omega)
        obtain ⟨p₂, hp₂, hh₂, hl₂, hw₂⟩ := ih k j c₂ hkn hj h2' hf1
          (fun m hm => by have := hn2 m hm; omega)
        obtain ⟨t, rfl⟩ : ∃ t, p₂ = k :: t := by
          cases p₂ with
          | nil => simp at hh₂
          | cons a t =>
            simp only [List.head?_cons, Option.some.injEq] at hh₂
            exact ⟨t, by rw [hh₂]⟩
        have ht_ne : t ≠ [] := by
          intro h0
          subst h0
          simp only [List.getLast?_singleton, Option.some.injEq] at hl₂
          exact hkj hl₂
        have hlast_t : t.getLast? = some j := by
          have hkt : ((k :: t)).getLast? = t.getLast? :=
            List.getLast?_append_of_ne_nil [k] ht_ne
          rw [← hkt]
          exact hl₂
        refine ⟨p₁ ++ t, ?_, ?_, ?_, ?_⟩
        · show fwPath G (floydWarshall G) (f + 1) i j = some (p₁ ++ t)
          simp only [fwPath, if_neg hij, hvia, hp₁, hp₂, List.tail_cons]
        · cases p₁ with
          | nil => simp at hh₁
          | cons a t₁ =>
            simp only [List.head?_cons, Option.some.injEq] at hh₁
            simp [hh₁]
        · rw [List.getLast?_append_of_ne_nil _ ht_ne]
          exact hlast_t
        · rw [legWeight_glue hl₁ t, hw₁, hw₂]
          rfl


theorem fwPathTop_spec {G : Graph} (hnn : G.Nonneg) {u v : ℕ} (hu : u < G.n) (hv : v < G.n)
    {c : ℚ} (hc : (floydWarshall G).d u v = some c) :
    ∃ p, fwPathTop G u v = some p ∧ p.head? = some u ∧ p.getLast? = some v ∧
      legWeight G p = some c := by
  obtain ⟨p, hp, hh, hl, hw⟩ := fwPath_spec hnn (G.n + 1) u v c hu hv hc (by omega)
    (fun m hm => by
      obtain ⟨-, -, -, hm4, -⟩ := (fwInv_final G hnn).viaP u v m hu hv hm
      omega)
  refine ⟨p, ?_, hh, hl, hw⟩
  simp only [fwPathTop, hc]
  exact hp

theorem fwPathTop_self {G : Graph} (hnn : G.Nonneg) {s : ℕ} (hs : s < G.n) :
    fwPathTop G s s = some [s] := by
  have hd := fwInv_diag hnn (fwInv_final G hnn) hs
  simp only [fwPathTop, hd]
  simp [fwPath]

theorem fw_dist_some {G : Graph} (hnn : G.Nonneg) {u v : ℕ} (hu : u < G.n)
    (hv : v < G.n) {c : ℚ} (h : (floydWarshall G).d u v = some c) :
    HWalk G (fun _ => True) u v c ∧ ∀ c', HWalk G (fun _ => True) u v c' → c ≤ c' := by
  have hf := fwInv_final G hnn
  refine ⟨HWalk.iff_vwalk.mpr ((hf.reach u v c hu hv h).mono fun x _ => trivial), ?_⟩
  intro c' hw'
  have hle := hf.minB u v hu hv c' (vwalk_lt_n (HWalk.iff_vwalk.mp hw'))
  rw [h] at hle
  simpa [dleB, decide_eq_true_eq] using hle

theorem fw_dist_none {G : Graph} (hnn : G.Nonneg) {u v : ℕ} (hu : u < G.n)
    (hv : v < G.n) (h : (floydWarshall G).d u v = none) :
    ∀ c', ¬ HWalk G (fun _ => True) u v c' := by
  intro c' hw'
  have hle := (fwInv_final G hnn).minB u v hu hv c' (vwalk_lt_n (HWalk.iff_vwalk.mp hw'))
  rw [h] at hle
  simp [dleB] at hle

/-- Modelled from the spec: the algorithm selector of the request (§4.2, §6). -/
inductive Alg where
  | dijkstra
  | floydWarshall
deriving DecidableEq

/-- Modelled from the spec: shortest distance as reported by the selected solver. -/
def solverDist (G : Graph) : Alg → ℕ → ℕ → Option ℚ
  | .dijkstra, u, v => (CaRoute.dijkstra G u).dist v
  | .floydWarshall, u, v => (CaRoute.floydWarshall G).d u v

/-- Modelled from the spec: concrete node path as reconstructed by the selected solver. -/
def solverPath (G : Graph) : Alg → ℕ → ℕ → Option (List ℕ)
  | .dijkstra, u, v => dijPath G u v
  | .floydWarshall, u, v => fwPathTop G u v

/-- C2: on a non-negative graph, whenever Dijkstra reports a (finite) shortest distance
from `u` to `v`, Floyd–Warshall reports the same distance, and for either solver the
reconstructed path runs from `u` to `v` with edge-weight sum exactly the reported
distance. -/
theorem c2_solver_agreement {G : Graph} (hnn : G.Nonneg) {u v : ℕ} (hu : u < G.n)
    (hv : v < G.n) {c : ℚ} (hd : (dijkstra G u).dist v = some c) :
    (floydWarshall G).d u v = some c ∧
    ∀ a : Alg, ∃ p, solverPath G a u v = some p ∧ p.head? = some u ∧
      p.getLast? = some v ∧ legWeight G p = some c := by
  have hdk := dijkstra_dist_some hnn hu hv hd
  have hfw : (floydWarshall G).d u v = some c := by
    have hle := (fwInv_final G hnn).minB u v hu hv c (vwalk_lt_n (HWalk.iff_vwalk.mp hdk.1))
    cases hF : (floydWarshall G).d u v with
    | none =>
      rw [hF] at hle
      simp [dleB] at hle
    | some c'' =>
      rw [hF] at hle
      have h1 : c'' ≤ c := by simpa [dleB, decide_eq_true_eq] using hle
      have hwalk'' : HWalk G (fun _ => True) u v c'' :=
        HWalk.iff_vwalk.mpr (((fwInv_final G hnn).reach u v c'' hu hv hF).mono fun x _ => trivial)
      have h2 : c ≤ c'' := hdk.2 c'' hwalk''
      rw [le_antisymm h1 h2]
  refine ⟨hfw, ?_⟩
  intro a
  cases a with
  | dijkstra =>
    simp only [solverPath]
    exact dijPath_spec hnn hu hv hd
  | floydWarshall =>
    simp only [solverPath]
    exact fwPathTop_spec hnn hu hv hfw

/-- A concrete two-node graph with a unit-weight edge in each direction. -/
def G2 : Graph where
  n := 2
  w := fun i j =>
    if i = 0 ∧ j = 1 then some 1 else if i = 1 ∧ j = 0 then some 1 else none
  coord := fun _ => (0, 0)

theorem g2_nonneg : G2.Nonneg := by
  intro i j q h
  simp only [G2] at h
  split at h
  · simp only [Option.some.injEq] at h
    rw [← h]
    norm_num
  · split at h
    · simp only [Option.some.injEq] at h
      rw [← h]
      norm_num
    · exact Option.noConfusion h

unseal Rat.add in
theorem c2_witness :
    (floydWarshall G2).d 0 1 = some 1 ∧
    ∀ a : Alg, ∃ p, solverPath G2 a 0 1 = some p ∧ p.head? = some 0 ∧
      p.getLast? = some 1 ∧ legWeight G2 p = some 1 :=
  c2_solver_agreement g2_nonneg (by decide) (by decide) (by decide)


/-! ## computeRoute (spec §3, §4.3, §4.5, §6, §7) -/

theorem solverDist_self {G : Graph} (hnn : G.Nonneg) {s : ℕ} (hs : s < G.n) (a : Alg) :
    solverDist G a s s = some 0 := by
  cases a with
  | dijkstra => exact dijkstra_dist_self hnn hs
  | floydWarshall => exact fwInv_diag hnn (fwInv_final G hnn) hs

theorem solverPath_self {G : Graph} (hnn : G.Nonneg) {s : ℕ} (hs : s < G.n) (a : Alg) :
    solverPath G a s s = some [s] := by
  cases a with
  | dijkstra => exact dijPath_self hnn hs
  | floydWarshall => exact fwPathTop_self hnn hs

theorem solverPath_of_dist {G : Graph} (hnn : G.Nonneg) {u v : ℕ} (hu : u < G.n)
    (hv : v < G.n) {c : ℚ} (a : Alg) (h : solverDist G a u v = some c) :
    ∃ p, solverPath G a u v = some p ∧ p.head? = some u ∧ p.getLast? = some v ∧
      legWeight G p = some c := by
  cases a with
  | dijkstra => exact dijPath_spec hnn hu hv h
  | floydWarshall => exact fwPathTop_spec hnn hu hv h

/-- Modelled from the spec: duplicate destination ids are ignored (§6); first
occurrences are kept, ids already seen are skipped. -/
def dedupAux (seen : List ℕ) : List ℕ → List ℕ
  | [] => []
  | x :: xs => if x ∈ seen then dedupAux seen xs else x :: dedupAux (x :: seen) xs

/-- Modelled from the spec: the points of interest of a request, origin fixed at
index 0, destinations deduplicated (§4.3). -/
def poisOf (o : ℕ) (dests : List ℕ) : List ℕ := o :: dedupAux [o] dests

/-- Modelled from the spec: an entry of the request's distance matrix, as a
rational (§4.3); only read once every pair is known to be finite. -/
def dmQ (G : Graph) (a : Alg) (pois : List ℕ) (i j : ℕ) : ℚ :=
  (solverDist G a (pois.getD i 0) (pois.getD j 0)).getD 0

/-- Modelled from the spec: the consecutive stop pairs (the legs) of a tour (§4.5). -/
def legsOf (tour : List ℕ) : List (ℕ × ℕ) := tour.zip tour.tail

/-- Modelled from the spec: reconstruct the concrete node path of every leg
(§4.5); `none` when some reconstruction fails. -/
def legPaths (G : Graph) (a : Alg) (pois : List ℕ) : List (ℕ × ℕ) → Option (List (List ℕ))
  | [] => some []
  | (i, j) :: rest =>
    match solverPath G a (pois.getD i 0) (pois.getD j 0), legPaths G a pois rest with
    | some p, some ps => some (p :: ps)
    | _, _ => none

/-- Modelled from the spec: concatenate the legs into one node sequence, eliding
the duplicate boundary node where one leg's last node equals the next leg's
first node (§4.5). -/
def elideConcat (legs : List (List ℕ)) : List ℕ :=
  List.foldl (fun acc leg =>
    match acc.getLast?, leg with
    | some x, y :: ys => if x = y then acc ++ ys else acc ++ leg
    | _, _ => acc ++ leg) [] legs

/-- Modelled from the spec: the assembler's own total, the sum of the leg
distances (§4.5). -/
def legsTotal (G : Graph) (paths : List (List ℕ)) : Option ℚ :=
  List.foldl (fun acc p => dadd acc (legWeight G p)) (some 0) paths

/-- Modelled from the spec: the error taxonomy (§7). -/
inductive RouteError where
  | UnknownNode
  | NoRouteExists
  | InternalInconsistency
deriving DecidableEq

/-- Modelled from the spec: the Route record (§3). -/
structure Route where
  origin : ℕ
  tourIds : List ℕ
  nodes : List ℕ
  total : ℚ
  segments : List (List (ℚ × ℚ))
deriving DecidableEq

/-- Modelled from the spec: the engine entry point `computeRoute` (§6): the
`UnknownNode` guard first (§7), then the distance-matrix builder with its
`NoRouteExists` guard (§4.3), then the tour optimizer (§4.4) and the route
assembler with its internal consistency check (§4.5). -/
def computeRoute (G : Graph) (o : ℕ) (dests : List ℕ) (a : Alg) :
    Except RouteError Route :=
  if (o :: dests).all (fun v => decide (G.hasNode v)) then
    let pois := poisOf o dests
    if pois.all (fun u => pois.all (fun v => decide (solverDist G a u v ≠ none))) then
      let tour := tourOptimizer (dmQ G a pois) pois.length
      let total := tourLength (dmQ G a pois) tour
      match legPaths G a pois (legsOf tour) with
      | none => .error .InternalInconsistency
      | some paths =>
        if legsTotal G paths = some total then
          .ok { origin := o
                tourIds := tour.map (fun i => pois.getD i 0)
                nodes := elideConcat paths
                total := total
                segments := paths.map (fun p => p.map G.coord) }
        else .error .InternalInconsistency
    else .error .NoRouteExists
  else .error .UnknownNode

theorem legPaths_length {G : Graph} {a : Alg} {pois : List ℕ} :
    ∀ {ls : List (ℕ × ℕ)} {ps : List (List ℕ)},
      legPaths G a pois ls = some ps → ps.length = ls.length := by
  intro ls
  induction ls with
  | nil =>
    intro ps h
    simp only [legPaths, Option.some.injEq] at h
    rw [← h]
    rfl
  | cons ij rest ih =>
    intro ps h
    obtain ⟨i, j⟩ := ij
    simp only [legPaths] at h
    cases hp : solverPath G a (pois.getD i 0) (pois.getD j 0) with
    | none =>
      rw [hp] at h
      simp at h
    | some p =>
      cases hr : legPaths G a pois rest with
      | none =>
        rw [hp, hr] at h
        simp at h
      | some ps' =>
        rw [hp, hr] at h
        simp only [Option.some.injEq] at h
        rw [← h]
        simp [ih hr]

theorem tourOptimizer_one (d : ℕ → ℕ → ℚ) : tourOptimizer d 1 = [0, 0] := rfl

theorem tourOptimizer_two (d : ℕ → ℕ → ℚ) : tourOptimizer d 2 = [0, 1, 0] := rfl


/-- C5: a request whose origin id or some destination id is not a node of the
Graph Store fails immediately with `UnknownNode`; no partial computation is
attempted and no Route is produced. -/
theorem c5_unknown_node {G : Graph} {o : ℕ} {dests : List ℕ} (a : Alg)
    (h : ¬ ∀ v ∈ o :: dests, G.hasNode v) :
    computeRoute G o dests a = .error .UnknownNode := by
  have hb : ((o :: dests).all (fun v => decide (G.hasNode v))) = false := by
    cases hall : (o :: dests).all (fun v => decide (G.hasNode v)) with
    | false => rfl
    | true =>
      exfalso
      apply h
      intro v hv
      have := List.all_eq_true.mp hall v hv
      simpa using this
  simp only [computeRoute, hb]
  simp

/-- C4: when every requested id is known but some pair of points of interest
(origin or deduplicated destination) has infinite shortest distance under the
selected solver, `computeRoute` fails with `NoRouteExists`: no tour is computed
and no partial Route is returned. -/
theorem c4_no_route {G : Graph} {o : ℕ} {dests : List ℕ} {a : Alg}
    (hknown : ∀ v ∈ o :: dests, G.hasNode v)
    (h : ∃ u ∈ poisOf o dests, ∃ v ∈ poisOf o dests, solverDist G a u v = none) :
    computeRoute G o dests a = .error .NoRouteExists := by
  have hb1 : ((o :: dests).all (fun v => decide (G.hasNode v))) = true := by
    rw [List.all_eq_true]
    intro v hv
    simpa using hknown v hv
  have hb2 : ((poisOf o dests).all (fun u => (poisOf o dests).all
      (fun v => decide (solverDist G a u v ≠ none)))) = false := by
    obtain ⟨u, hu, v, hv, hnone⟩ := h
    cases hall : (poisOf o dests).all (fun u => (poisOf o dests).all
        (fun v => decide (solverDist G a u v ≠ none))) with
    | false => rfl
    | true =>
      exfalso
      have h1 := List.all_eq_true.mp (List.all_eq_true.mp hall u hu) v hv
      simp only [decide_eq_true_eq] at h1
      exact h1 hnone
  simp only [computeRoute, hb1, hb2]
  simp

/-- A concrete two-node graph with no edges at all. -/
def G3 : Graph where
  n := 2
  w := fun _ _ => none
  coord := fun _ => (0, 0)

unseal Rat.add in
theorem c4_witness :
    (∀ v ∈ (0 : ℕ) :: [1], G3.hasNode v) ∧
    (∃ u ∈ poisOf 0 [1], ∃ v ∈ poisOf 0 [1], solverDist G3 .dijkstra u v = none) ∧
    computeRoute G3 0 [1] .dijkstra = .error .NoRouteExists :=
  ⟨by decide, by decide, c4_no_route (by decide) (by decide)⟩

theorem c5_witness :
    (¬ ∀ v ∈ (0 : ℕ) :: [5], G2.hasNode v) ∧
    computeRoute G2 0 [5] .dijkstra = .error .UnknownNode :=
  ⟨by decide, c5_unknown_node .dijkstra (by decide)⟩


/-- C6: for a known origin and an empty destination set, `computeRoute` succeeds
with the trivial tour `[origin, origin]`, total distance 0, a node sequence
containing only the origin, and one single-point coordinate segment. -/
theorem c6_empty_dests {G : Graph} (hnn : G.Nonneg) {o : ℕ} (ho : G.hasNode o) (a : Alg) :
    computeRoute G o [] a = .ok ⟨o, [o, o], [o], 0, [[G.coord o]]⟩ := by
  have ho' : o < G.n := ho
  have hself := solverDist_self hnn ho' a
  have hpath := solverPath_self hnn ho' a
  have hpois : poisOf o [] = [o] := rfl
  have hb1 : (((o : ℕ) :: []).all (fun v => decide (G.hasNode v))) = true := by
    simp [Graph.hasNode, ho']
  have hb2 : ((poisOf o []).all (fun u => (poisOf o []).all
      (fun v => decide (solverDist G a u v ≠ none)))) = true := by
    simp [hpois, hself]
  have hd00 : dmQ G a [o] 0 0 = 0 := by
    simp [dmQ, hself]
  have hlegs : legPaths G a [o] (legsOf [0, 0]) = some [[o]] := by
    simp [legsOf, legPaths, hpath]
  have htl : tourLength (dmQ G a [o]) [0, 0] = 0 := by
    simp [tourLength, hd00]
  have hlt : legsTotal G [[o]] = some 0 := by
    simp [legsTotal, legWeight, dadd]
  simp only [computeRoute, hb1, hb2, hpois, List.length_cons, List.length_nil,
    tourOptimizer_one, htl, hlegs, hlt]
  simp [tourOptimizer_one, hself, hlegs, htl, hlt, elideConcat, List.getD]


unseal Rat.add in
theorem c6_witness :
    G2.hasNode 0 ∧
    computeRoute G2 0 [] .dijkstra = .ok ⟨0, [0, 0], [0], 0, [[(0, 0)]]⟩ :=
  ⟨by decide, c6_empty_dests g2_nonneg (by decide) .dijkstra⟩

/-- C7: for a known origin and a single distinct known destination whose shortest
distance under the selected solver is the same finite `q` in both directions,
`computeRoute` returns the tour `[origin, destination, origin]` with total
distance `2 * q`, for either algorithm selector. -/
theorem c7_single_dest {G : Graph} (hnn : G.Nonneg) {o dd : ℕ} (ho : G.hasNode o)
    (hd : G.hasNode dd) (hne : o ≠ dd) {a : Alg} {q : ℚ}
    (h1 : solverDist G a o dd = some q) (h2 : solverDist G a dd o = some q) :
    ∃ r, computeRoute G o [dd] a = .ok r ∧ r.tourIds = [o, dd, o] ∧ r.total = 2 * q := by
  have ho' : o < G.n := ho
  have hd' : dd < G.n := hd
  have hne' : dd ≠ o := Ne.symm hne
  have hso := solverDist_self hnn ho' a
  have hsd := solverDist_self hnn hd' a
  have hpois : poisOf o [dd] = [o, dd] := by
    simp [poisOf, dedupAux, hne']
  have hb1 : (((o : ℕ) :: [dd]).all (fun v => decide (G.hasNode v))) = true := by
    simp [Graph.hasNode, ho', hd']
  have hb2 : ((poisOf o [dd]).all (fun u => (poisOf o [dd]).all
      (fun v => decide (solverDist G a u v ≠ none)))) = true := by
    simp [hpois, hso, hsd, h1, h2]
  obtain ⟨p₁, hp₁, hh₁, hl₁, hw₁⟩ := solverPath_of_dist hnn ho' hd' a h1
  obtain ⟨p₂, hp₂, hh₂, hl₂, hw₂⟩ := solverPath_of_dist hnn hd' ho' a h2
  have hd01 : dmQ G a [o, dd] 0 1 = q := by simp [dmQ, h1]
  have hd10 : dmQ G a [o, dd] 1 0 = q := by simp [dmQ, h2]
  have htl : tourLength (dmQ G a [o, dd]) [0, 1, 0] = q + (q + 0) := by
    simp only [tourLength, hd01, hd10]
  have hlegs : legPaths G a [o, dd] (legsOf [0, 1, 0]) = some [p₁, p₂] := by
    simp [legsOf, legPaths, hp₁, hp₂, List.getD]
  have hlt : legsTotal G [p₁, p₂] = some (q + (q + 0)) := by
    simp only [legsTotal, List.foldl_cons, List.foldl_nil, hw₁, hw₂, dadd_some_some]
    congr 1
    ring
  refine ⟨⟨o, [o, dd, o], elideConcat [p₁, p₂], q + (q + 0),
    [p₁.map G.coord, p₂.map G.coord]⟩, ?_, rfl, by ring⟩
  simp only [computeRoute, hb1, hb2, hpois, List.length_cons, List.length_nil,
    tourOptimizer_two, htl, hlegs, hlt]
  simp [tourOptimizer_two, hso, hsd, h1, h2, hlegs, htl, hlt, List.getD, elideConcat]


unseal Rat.add in
theorem c7_witness :
    solverDist G2 .floydWarshall 0 1 = some 1 ∧
    solverDist G2 .floydWarshall 1 0 = some 1 ∧
    ∃ r, computeRoute G2 0 [1] .floydWarshall = .ok r ∧ r.tourIds = [0, 1, 0] ∧
      r.total = 2 * 1 :=
  ⟨by decide, by decide,
    c7_single_dest g2_nonneg (by decide) (by decide) (by decide) (by decide) (by decide)⟩

/-- C9: every successful `computeRoute` result is assembled exactly as specified:
the tour ids are the tour's point indices mapped to node ids, the node sequence
is the boundary-eliding concatenation of the reconstructed legs, the coordinate
segments are the per-leg node paths mapped to coordinates — kept separate and
aligned 1:1 with the legs of the tour — and the reported total equals the sum of
the leg distances. -/
theorem c9_route_assembler {G : Graph} {o : ℕ} {dests : List ℕ} {a : Alg} {r : Route}
    (h : computeRoute G o dests a = .ok r) :
    ∃ paths,
      legPaths G a (poisOf o dests)
        (legsOf (tourOptimizer (dmQ G a (poisOf o dests)) (poisOf o dests).length)) =
          some paths ∧
      r.tourIds = (tourOptimizer (dmQ G a (poisOf o dests))
        (poisOf o dests).length).map (fun i => (poisOf o dests).getD i 0) ∧
      r.nodes = elideConcat paths ∧
      r.segments = paths.map (fun p => p.map G.coord) ∧
      (tourOptimizer (dmQ G a (poisOf o dests)) (poisOf o dests).length).length =
        paths.length + 1 ∧
      legsTotal G paths = some r.total := by
  simp only [computeRoute] at h
  split at h
  · split at h
    · split at h
      · exact Except.noConfusion h
      · rename_i paths heq
        split at h
        · rename_i hcond
          injection h with h'
          subst h'
          have hn : 1 ≤ (poisOf o dests).length := by simp [poisOf]
          have hvt : ValidTour (poisOf o dests).length
              (tourOptimizer (dmQ G a (poisOf o dests)) (poisOf o dests).length) :=
            validTour_twoOptAux _ _ _
              (validTour_nnTour (dmQ G a (poisOf o dests)) (poisOf o dests).length hn)
          have hlt := hvt.1
          have hplen := legPaths_length heq
          refine ⟨paths, heq, rfl, rfl, rfl, ?_, hcond⟩
          simp only [legsOf, List.length_zip, List.length_tail, hlt] at hplen
          omega
        · exact Except.noConfusion h
    · exact Except.noConfusion h
  · exact Except.noConfusion h

instance {e a : Type} [DecidableEq e] [DecidableEq a] : DecidableEq (Except e a) := fun x y =>
  match x, y with
  | .ok u, .ok v =>
    match decEq u v with
    | .isTrue h => .isTrue (by rw [h])
    | .isFalse h => .isFalse (fun hh => h (by injection hh))
  | .error u, .error v =>
    match decEq u v with
    | .isTrue h => .isTrue (by rw [h])
    | .isFalse h => .isFalse (fun hh => h (by injection hh))
  | .ok _, .error _ => .isFalse (fun hh => Except.noConfusion hh)
  | .error _, .ok _ => .isFalse (fun hh => Except.noConfusion hh)

/-- The Route that `computeRoute` produces on `G2` with destination 1. -/
def r0 : Route :=
  ⟨0, [0, 1, 0], [0, 1, 0], 2, [[(0, 0), (0, 0)], [(0, 0), (0, 0)]]⟩

unseal Rat.add in
theorem c9_witness :
    computeRoute G2 0 [1] .dijkstra = .ok r0 ∧
    ∃ paths,
      legPaths G2 .dijkstra (poisOf 0 [1])
        (legsOf (tourOptimizer (dmQ G2 .dijkstra (poisOf 0 [1])) (poisOf 0 [1]).length)) =
          some paths ∧
      r0.tourIds = (tourOptimizer (dmQ G2 .dijkstra (poisOf 0 [1]))
        (poisOf 0 [1]).length).map (fun i => (poisOf 0 [1]).getD i 0) ∧
      r0.nodes = elideConcat paths ∧
      r0.segments = paths.map (fun p => p.map G2.coord) ∧
      (tourOptimizer (dmQ G2 .dijkstra (poisOf 0 [1])) (poisOf 0 [1]).length).length =
        paths.length + 1 ∧
      legsTotal G2 paths = some r0.total :=
  ⟨by decide, c9_route_assembler (by decide)⟩

end CaRoute
